import Mathlib

/-!
# Pattern scanning engine of `cpp-breaker`: embedding and verification

Shallow embedding of

* `SIMDScanner` (`src/core/cpp-breaker/src/simd_scanner.cpp`),
* `PatternDefinition` / `PatternEngine` (`src/core/cpp-breaker/src/pattern_engine.cpp`),
* `PatternEngine::extract_context` (`src/core/cpp-breaker/include/pattern_engine.h`).

Conventions.

* A C++ `char` buffer (`const char*` with its length, or a `std::string`) is a `List Byte`
  with `Byte = UInt8`; only equality and the unsigned order of bytes are ever used.
* `size_t` is a natural number below `2 ^ 64`; subtraction and addition wrap explicitly
  (`size_sub`, `size_add`).  `int` is a 32-bit two's-complement value.
* A read outside the buffer is undefined behaviour in C++; here it is the explicit fault
  `Fault.out_of_bounds`.  Loops carry a fuel argument which the entry points set to a
  value that is never exhausted before the loop ends.
* `std::regex` is an external library: the engine is a parameter (`RegexEngine`).
-/

namespace CppBreaker

/-! ## Machine model -/

/-- One C++ `char`, compared as `unsigned char`. -/
abbrev Byte := UInt8

/-- The bytes of an ASCII string literal. -/
def bytes (s : String) : List Byte := s.toList.map (fun c => UInt8.ofNat c.toNat)

/-- Number of values of `size_t` on the 64-bit target. -/
def SIZE_MOD : Nat := 2 ^ 64

/-- Subtraction of two `size_t` values (both below `2 ^ 64`): wraps modulo `2 ^ 64`. -/
def size_sub (a b : Nat) : Nat := (SIZE_MOD + a - b) % SIZE_MOD

/-- Addition of two `size_t` values: wraps modulo `2 ^ 64`. -/
def size_add (a b : Nat) : Nat := (a + b) % SIZE_MOD

/-- Ways in which a run of the embedded code can go wrong. -/
inductive Fault where
  /-- a read of `count` bytes starting at `index` in a buffer of `len` bytes -/
  | out_of_bounds (index count len : Nat)
  /-- the fuel of a loop model ran out -/
  | out_of_fuel
  /-- the `std::out_of_range` exception of `std::string::substr` -/
  | out_of_range (pos size : Nat)
  deriving DecidableEq, Repr

/-! ## `SIMDScanner` (simd_scanner.cpp) -/

/-- Model of `_mm256_loadu_si256(data + i)`: the 32 bytes `data[i .. i+32)`.  The load is
defined only when all 32 bytes lie inside the buffer. -/
def loadu_si256 (data : List Byte) (i : Nat) : Except Fault (List Byte) :=
  if i + 32 ≤ data.length then .ok ((data.drop i).take 32)
  else .error (.out_of_bounds i 32 data.length)

/-- Model of `_mm256_movemask_epi8(_mm256_cmpeq_epi8(data_vec, target_vec))`: bit `k` of the
mask is set exactly when lane `k` of the chunk equals the target byte.  The `int` mask is
represented by its 32-bit pattern. -/
def movemask_cmpeq : List Byte → Byte → Nat
  | [], _ => 0
  | b :: rest, target => (if b = target then 1 else 0) + 2 * movemask_cmpeq rest target

/-- Bit scan behind `__builtin_ctz`. -/
def ctz_aux : Nat → Nat → Nat
  | 0, _ => 0
  | fuel + 1, mask => if mask % 2 = 1 then 0 else 1 + ctz_aux fuel (mask / 2)

/-- Model of `__builtin_ctz(mask)` for a non-zero 32-bit pattern: the number of trailing
zero bits. -/
def ctz (mask : Nat) : Nat := ctz_aux 32 mask

/-- The extraction loop of `scan_byte_simd` (lines 57-61):
`while (mask != 0) { pos = ctz(mask); matches.push_back(i + pos); mask &= mask - 1; }`. -/
def extract_positions : Nat → Nat → Nat → List Nat → List Nat
  | 0, _, _, acc => acc
  | fuel + 1, mask, i, acc =>
    if mask = 0 then acc
    else extract_positions fuel (mask &&& (mask - 1)) i (acc ++ [i + ctz mask])

/-- Guard of the chunk loop, `i <= data_len - 32`, evaluated in `size_t` arithmetic. -/
def chunk_guard (i data_len : Nat) : Bool := decide (i ≤ size_sub data_len 32)

/-- The chunk loop of `scan_byte_simd` (lines 51-62), started at index `i` with the matches
collected so far; returns the final `i` and the matches. -/
def chunk_loop : Nat → List Byte → Byte → Nat → List Nat → Except Fault (Nat × List Nat)
  | 0, _, _, _, _ => .error .out_of_fuel
  | fuel + 1, data, target, i, acc =>
    if chunk_guard i data.length then
      match loadu_si256 data i with
      | .error e => .error e
      | .ok chunk =>
        chunk_loop fuel data target (size_add i 32)
          (extract_positions 32 (movemask_cmpeq chunk target) i acc)
    else .ok (i, acc)

/-- The scalar tail loop of `scan_byte_simd` (lines 65-69). -/
def tail_loop : Nat → List Byte → Byte → Nat → List Nat → List Nat
  | 0, _, _, _, acc => acc
  | fuel + 1, data, target, i, acc =>
    if h : i < data.length then
      tail_loop fuel data target (i + 1)
        (if data.get ⟨i, h⟩ = target then acc ++ [i] else acc)
    else acc

/-- Embedding of `SIMDScanner::scan_byte_simd(data, data_len, target)`. -/
def scan_byte_simd (data : List Byte) (target : Byte) : Except Fault (List Nat) :=
  match chunk_loop (data.length / 32 + 1) data target 0 [] with
  | .error e => .error e
  | .ok (i, acc) => .ok (tail_loop data.length data target i acc)

/-- The purely scalar scan: walk `i = 0 .. data_len - 1` and append `i` whenever
`data[i] == target`. -/
def scan_byte_scalar (data : List Byte) (target : Byte) : List Nat :=
  tail_loop data.length data target 0 []

/-- Model of `std::memcmp(a, b, n) == 0` on buffers holding at least `n` bytes. -/
def memcmp_eq (a b : List Byte) (n : Nat) : Bool := a.take n == b.take n

/-- The verification loop of `scan_pattern_simd` (lines 31-37). -/
def verify_candidates (data pattern : List Byte) : List Nat → List Nat → List Nat
  | [], acc => acc
  | pos :: rest, acc =>
    verify_candidates data pattern rest
      (if pos + pattern.length ≤ data.length then
        (if memcmp_eq (data.drop pos) pattern pattern.length then acc ++ [pos] else acc)
      else acc)

/-- Embedding of `SIMDScanner::scan_pattern_simd(data, data_len, pattern, pattern_len)`. -/
def scan_pattern_simd (data pattern : List Byte) : Except Fault (List Nat) :=
  match pattern with
  | [] => .ok []
  | first_char :: _ =>
    if pattern.length > data.length then .ok []
    else if pattern.length = 1 then scan_byte_simd data first_char
    else
      match scan_byte_simd data first_char with
      | .error e => .error e
      | .ok candidate_positions => .ok (verify_candidates data pattern candidate_positions [])

/-- Reference list for the byte scan: the offsets, shifted by `base`, at which `target`
occurs in `data`, in increasing order. -/
def match_indices : List Byte → Byte → Nat → List Nat
  | [], _, _ => []
  | b :: rest, target, base =>
    if b = target then base :: match_indices rest target (base + 1)
    else match_indices rest target (base + 1)

/-- Result of `scan_byte_simd` once the chunk loop has ended: run the scalar tail. -/
def finish_scan (data : List Byte) (target : Byte) :
    Except Fault (Nat × List Nat) → Except Fault (List Nat)
  | .error e => .error e
  | .ok (i, acc) => .ok (tail_loop data.length data target i acc)

deriving instance DecidableEq for Except

/-- Model of `operator<` on `std::string`: lexicographic comparison of the bytes as
`unsigned char`, a proper prefix being smaller. -/
def string_lt : List Byte → List Byte → Bool
  | _, [] => false
  | [], _ :: _ => true
  | a :: as, b :: bs =>
    decide (a.toNat < b.toNat) || (decide (a.toNat = b.toNat) && string_lt as bs)

/-- Model of `operator<` on `std::pair<size_t, std::string>`. -/
def pair_lt (x y : Nat × List Byte) : Bool :=
  decide (x.1 < y.1) || (!decide (y.1 < x.1) && string_lt x.2 y.2)

/-- The order in which `std::sort` leaves two elements: `y` is not smaller than `x`. -/
def pair_le (x y : Nat × List Byte) : Prop := pair_lt y x = false

instance : DecidableRel pair_le := fun x y => inferInstanceAs (Decidable (pair_lt y x = false))

/-- Model of `std::sort(all_matches.begin(), all_matches.end())` (line 89).  The comparison
is a strict total order on the pairs, so the sorted arrangement is unique whatever algorithm
the library runs; it is computed here by insertion sort. -/
def std_sort (all_matches : List (Nat × List Byte)) : List (Nat × List Byte) :=
  all_matches.insertionSort pair_le

/-- The collection loop of `scan_multiple_patterns_simd` (lines 81-86). -/
def collect_matches (data : List Byte) :
    List (List Byte) → List (Nat × List Byte) → Except Fault (List (Nat × List Byte))
  | [], all_matches => .ok all_matches
  | pattern :: rest, all_matches =>
    match scan_pattern_simd data pattern with
    | .error e => .error e
    | .ok hits =>
      collect_matches data rest (all_matches ++ hits.map (fun match_pos => (match_pos, pattern)))

/-- Embedding of `SIMDScanner::scan_multiple_patterns_simd(data, data_len, patterns)`. -/
def scan_multiple_patterns_simd (data : List Byte) (patterns : List (List Byte)) :
    Except Fault (List (Nat × List Byte)) :=
  match collect_matches data patterns [] with
  | .error e => .error e
  | .ok all_matches => .ok (std_sort all_matches)

/-! ## `PatternEngine` (pattern_engine.cpp) -/

/-- Interface of the external `std::regex` library, as `pattern_engine.cpp` uses it. -/
structure RegexEngine where
  /-- compiled `std::regex` objects -/
  Regex : Type
  /-- the constructor `std::regex(p, std::regex_constants::icase)`; `none` when it throws
  `std::regex_error` -/
  compile : List Byte → Option Regex
  /-- the run of `std::sregex_iterator(text.begin(), text.end(), re)` up to the end iterator:
  position and length of each match, in iteration order -/
  find_all : Regex → List Byte → List (Nat × Nat)

/-- What the library guarantees about an iteration: each match lies inside the text, and each
search starts where the previous match ended. -/
def RegexEngine.Lawful (E : RegexEngine) : Prop :=
  ∀ (re : E.Regex) (text : List Byte),
    (∀ m ∈ E.find_all re text, m.1 + m.2 ≤ text.length) ∧
    (E.find_all re text).Pairwise (fun a b => a.1 + a.2 ≤ b.1)

/-- Conversion of a non-negative `std::ptrdiff_t` to `int`: the value modulo `2 ^ 32`, read
as a two's-complement number. -/
def to_int (n : Nat) : Int := (2 ^ 31 + (n : Int)) % 2 ^ 32 - 2 ^ 31

/-- Embedding of `struct PatternMatch`. -/
structure PatternMatch where
  pattern_name : String
  matched_text : List Byte
  position : Int
  severity : String
  description : String
  patch_template : String
  deriving DecidableEq, Repr

/-- Embedding of `struct PatternDefinition`; `compiled_regex = none` is the null
`std::unique_ptr`. -/
structure PatternDefinition (E : RegexEngine) where
  name : String
  description : String
  pattern_type : String
  pattern : List Byte
  severity : String
  applicable_to : List String
  patch_template : String
  compiled_regex : Option E.Regex

/-- Embedding of the constructor `PatternDefinition::PatternDefinition` (lines 35-48): a
`std::regex_error` is caught, and the pointer stays null. -/
def PatternDefinition.new (E : RegexEngine) (n d pt : String) (p : List Byte) (s : String)
    (app_to : List String) (patch_t : String) : PatternDefinition E :=
  ⟨n, d, pt, p, s, app_to, patch_t, if pt = "regex" then E.compile p else none⟩

/-- Embedding of `PatternEngine::add_pattern`: `patterns.push_back(pattern)`. -/
def add_pattern {E : RegexEngine} (patterns : List (PatternDefinition E))
    (pattern : PatternDefinition E) : List (PatternDefinition E) :=
  patterns ++ [pattern]

/-- The `PatternMatch` built in the body of the iterator loop (lines 161-168);
`match.str()` is the sub-range of the text the match covers. -/
def make_match {E : RegexEngine} (pattern : PatternDefinition E) (text : List Byte)
    (m : Nat × Nat) : PatternMatch :=
  ⟨pattern.name, (text.drop m.1).take m.2, to_int m.1, pattern.severity,
    pattern.description, pattern.patch_template⟩

/-- The iterator loop over the matches of one pattern (lines 160-171). -/
def push_matches {E : RegexEngine} (pattern : PatternDefinition E) (text : List Byte) :
    List (Nat × Nat) → List PatternMatch → List PatternMatch
  | [], found_patterns => found_patterns
  | m :: rest, found_patterns =>
    push_matches pattern text rest (found_patterns ++ [make_match pattern text m])

/-- The loop over the catalog in `find_patterns_in_text` (lines 154-173). -/
def find_patterns_loop {E : RegexEngine} (text : List Byte) :
    List (PatternDefinition E) → List PatternMatch → List PatternMatch
  | [], found_patterns => found_patterns
  | pattern :: rest, found_patterns =>
    match pattern.compiled_regex with
    | some re =>
      find_patterns_loop text rest (push_matches pattern text (E.find_all re text) found_patterns)
    | none => find_patterns_loop text rest found_patterns

/-- Embedding of `PatternEngine::find_patterns_in_text(text)` on the catalog `patterns`. -/
def find_patterns_in_text {E : RegexEngine} (patterns : List (PatternDefinition E))
    (text : List Byte) : List PatternMatch :=
  find_patterns_loop text patterns []

/-- The category test of `find_patterns_by_category` (lines 183-184): `"all"` or the
requested category is found in `applicable_to`. -/
def applies_to {E : RegexEngine} (pattern : PatternDefinition E) (category : String) : Bool :=
  pattern.applicable_to.contains "all" || pattern.applicable_to.contains category

/-- The loop over the catalog in `find_patterns_by_category` (lines 181-204). -/
def find_by_category_loop {E : RegexEngine} (text : List Byte) (category : String) :
    List (PatternDefinition E) → List PatternMatch → List PatternMatch
  | [], found_patterns => found_patterns
  | pattern :: rest, found_patterns =>
    if applies_to pattern category then
      match pattern.compiled_regex with
      | some re =>
        find_by_category_loop text category rest
          (push_matches pattern text (E.find_all re text) found_patterns)
      | none => find_by_category_loop text category rest found_patterns
    else find_by_category_loop text category rest found_patterns

/-- Embedding of `PatternEngine::find_patterns_by_category(text, category)`. -/
def find_patterns_by_category {E : RegexEngine} (patterns : List (PatternDefinition E))
    (text : List Byte) (category : String) : List PatternMatch :=
  find_by_category_loop text category patterns []

/-! ## `PatternEngine::extract_context` (include/pattern_engine.h) -/

/-- Model of `std::string::substr(pos, n)`: throws `std::out_of_range` when `pos > size()`,
otherwise copies `min(n, size() - pos)` bytes from `pos`. -/
def substr (s : List Byte) (pos n : Nat) : Except Fault (List Byte) :=
  if pos > s.length then .error (.out_of_range pos s.length)
  else .ok ((s.drop pos).take n)

/-- The marker `"..."`. -/
def ellipsis : List Byte := [46, 46, 46]

/-- Embedding of `PatternEngine::extract_context(content, match_pos, match_len, context_size)`
(lines 157-175); all four quantities are `size_t`. -/
def extract_context (content : List Byte) (match_pos match_len context_size : Nat) :
    Except Fault (List Byte) :=
  let start := if match_pos < context_size then 0 else match_pos - context_size
  let end_pos := min content.length (size_add (size_add match_pos match_len) context_size)
  match substr content start (size_sub end_pos start) with
  | .error e => .error e
  | .ok context =>
    let context := if start > 0 then ellipsis ++ context else context
    let context := if end_pos < content.length then context ++ ellipsis else context
    .ok context

/-! ## A model of `std::regex` for the pattern syntax of the default catalog

The bodies of `load_default_patterns` use alternation, plain characters, bracket classes
and the repetitions `?` and `*`.  `frag_engine` implements the ECMAScript rules of
`std::regex` for this fragment, case-insensitively: alternatives are tried from left to
right, repetitions are greedy and backtrack, a search reports the left-most match, and the
iterator resumes where the previous match ended.  A body outside the fragment is reported by
`frag_compile` as not compiled; the only such body used below is `(unterminated`, whose
unbalanced parenthesis makes `std::regex` throw `std::regex_error`. -/

/-- Repetition attached to one pattern character. -/
inductive Quant where
  | one
  | opt
  | star
  deriving DecidableEq, Repr

/-- One pattern character, a byte or a bracket class, with its repetition. -/
structure Item where
  negated : Bool
  members : List Byte
  quant : Quant
  deriving DecidableEq, Repr

/-- Case folding of `std::regex_constants::icase` on ASCII letters. -/
def to_lower (b : Byte) : Byte := if 65 ≤ b.toNat ∧ b.toNat ≤ 90 then b + 32 else b

/-- Whether the pattern character accepts the input byte. -/
def Item.accepts (it : Item) (c : Byte) : Bool :=
  (it.members.any (fun m => to_lower m == to_lower c)) != it.negated

/-- State of the pattern reader: at top level, or inside a bracket class. -/
inductive ParseMode where
  | top
  | cls (negated : Bool) (members : List Byte) (first : Bool)

/-- The characters `( ) { } + . \ ^ $ ]`, which the fragment does not cover at top level. -/
def is_meta (b : Byte) : Bool := [40, 41, 123, 125, 43, 46, 92, 94, 36, 93].contains b

/-- Reader of a pattern body: the alternatives, each a sequence of pattern characters. -/
def parse_regex : List Byte → ParseMode → List Item → List (List Item) →
    Option (List (List Item))
  | [], .top, cur, done => some (done ++ [cur])
  | [], .cls _ _ _, _, _ => none
  | b :: rest, .top, cur, done =>
    if b = 124 then parse_regex rest .top [] (done ++ [cur])
    else if b = 91 then parse_regex rest (.cls false [] true) cur done
    else if b = 63 ∨ b = 42 then
      match cur.getLast? with
      | some it =>
        if it.quant = .one then
          parse_regex rest .top
            (cur.dropLast ++ [⟨it.negated, it.members, if b = 63 then .opt else .star⟩]) done
        else none
      | none => none
    else if is_meta b then none
    else parse_regex rest .top (cur ++ [⟨false, [b], .one⟩]) done
  | b :: rest, .cls neg mem first, cur, done =>
    if b = 94 ∧ first = true then parse_regex rest (.cls true mem false) cur done
    else if b = 93 then parse_regex rest .top (cur ++ [⟨neg, mem, .one⟩]) done
    else if b = 92 then none
    else if b = 45 ∧ mem ≠ [] ∧ rest.head? ≠ some 93 then none
    else parse_regex rest (.cls neg (mem ++ [b]) false) cur done

/-- Model of `std::regex(p, icase)` on the fragment. -/
def frag_compile (p : List Byte) : Option (List (List Item)) := parse_regex p .top [] []

/-- Greedy repetition of one pattern character, then the continuation `k`; on failure of
the continuation one repetition is given back. -/
def star_loop (ok : Byte → Bool) (k : List Byte → Nat → Option Nat) :
    List Byte → Nat → Option Nat
  | [], n => k [] n
  | c :: t, n =>
    if ok c then
      match star_loop ok k t (n + 1) with
      | some r => some r
      | none => k (c :: t) n
    else k (c :: t) n

/-- One pattern character with its repetition, followed by the continuation `k`; `n` bytes
are consumed already.  A repetition is greedy, and gives back what the continuation
refuses. -/
def match_item (it : Item) (k : List Byte → Nat → Option Nat) (text : List Byte) (n : Nat) :
    Option Nat :=
  match it.quant with
  | .one =>
    match text with
    | c :: t => if it.accepts c then k t (n + 1) else none
    | [] => none
  | .opt =>
    match text with
    | c :: t =>
      if it.accepts c then
        match k t (n + 1) with
        | some x => some x
        | none => k (c :: t) n
      else k (c :: t) n
    | [] => k [] n
  | .star => star_loop it.accepts k text n

/-- Backtracking match of a sequence of pattern characters at the head of `text`, `n` bytes
being consumed already; the result is the total number of bytes consumed, and a match is
kept only if `accept` holds of it. -/
def match_items (accept : Nat → Bool) : List Item → List Byte → Nat → Option Nat
  | [], _, n => if accept n then some n else none
  | it :: r, text, n => match_item it (match_items accept r) text n

/-- The alternatives, tried from left to right at the head of `text`. -/
def match_alts (accept : Nat → Bool) : List (List Item) → List Byte → Option Nat
  | [], _ => none
  | alt :: rest, text =>
    match match_items accept alt text 0 with
    | some n => some n
    | none => match_alts accept rest text

/-- Model of `std::regex_search` on the text that starts at offset `p`: position and length
of the left-most match. -/
def search (re : List (List Item)) : List Byte → Nat → Option (Nat × Nat)
  | [], p => (match_alts (fun _ => true) re []).map (fun len => (p, len))
  | c :: t, p =>
    match match_alts (fun _ => true) re (c :: t) with
    | some len => some (p, len)
    | none => search re t (p + 1)

/-- Model of the increments of `std::sregex_iterator`, from offset `start`: after a
non-empty match the search resumes at its end; after an empty match a non-empty match is
tried at the same place (`match_not_null | match_continuous`) and otherwise the search
resumes one byte further. -/
def find_all_from (re : List (List Item)) : Nat → List Byte → Nat → List (Nat × Nat)
  | 0, _, _ => []
  | fuel + 1, text, start =>
    match search re (text.drop start) start with
    | none => []
    | some (p, 0) =>
      if text.length ≤ p then [(p, 0)]
      else
        match match_alts (fun n => decide (0 < n)) re (text.drop p) with
        | some len => (p, 0) :: (p, len) :: find_all_from re fuel text (p + len)
        | none => (p, 0) :: find_all_from re fuel text (p + 1)
    | some (p, len + 1) => (p, len + 1) :: find_all_from re fuel text (p + (len + 1))

/-- The fragment model of `std::regex` as a `RegexEngine`. -/
def frag_engine : RegexEngine :=
  ⟨List (List Item), frag_compile, fun re text => find_all_from re (text.length + 1) text 0⟩

/-- First entry of the default catalog (lines 66-74). -/
def cert_pinning : PatternDefinition frag_engine :=
  PatternDefinition.new frag_engine "Certificate Pinning" "Certificate pinning implementation"
    "regex" (bytes "checkServerTrusted|X509TrustManager|SSLSocketFactory") "MEDIUM"
    ["security"] "cert_pinning_bypass"

/-- Second entry of the default catalog (lines 76-84). -/
def root_detection : PatternDefinition frag_engine :=
  PatternDefinition.new frag_engine "Root Detection" "Root detection implementation"
    "regex" (bytes "isRooted|rootbeer|root check|superuser") "MEDIUM"
    ["security"] "root_detection_bypass"

/-- The catalog built by `PatternEngine::load_default_patterns` (lines 60-145), over the
fragment engine. -/
def default_patterns : List (PatternDefinition frag_engine) :=
  let all_categories := ["all"]
  let security_categories := ["security"]
  let app_categories := ["game", "utility", "media", "social", "finance"]
  [ cert_pinning,
    root_detection,
    PatternDefinition.new frag_engine "Anti-Debug" "Anti-debugging implementation"
      "regex" (bytes "isDebuggerConnected|debugger|jdwp") "MEDIUM"
      app_categories "anti_debug_bypass",
    PatternDefinition.new frag_engine "Hardcoded API Key" "Hardcoded API key in code"
      "regex" (bytes "api[_-]?key|token|secret") "CRITICAL"
      all_categories "remove_hardcoded_creds",
    PatternDefinition.new frag_engine "In-App Purchase" "In-app purchase verification logic"
      "regex" (bytes "billing|purchase|receipt|verify") "HIGH"
      app_categories "iap_bypass",
    PatternDefinition.new frag_engine "Login Authentication" "Login/authentication verification"
      "regex" (bytes "login|authenticate|auth|session") "HIGH"
      app_categories "auth_bypass",
    PatternDefinition.new frag_engine "Weak Cryptography" "Use of weak cryptographic algorithms"
      "regex" (bytes "MD5|DES|RC4|Base64") "HIGH"
      security_categories "crypto_upgrade",
    PatternDefinition.new frag_engine "SQL Injection Point" "Potential SQL injection vulnerability"
      "regex" (bytes "execSQL|rawQuery|SELECT [^']*'[^']*'") "HIGH"
      all_categories "sql_injection_fix" ]

/-- The text of the `PATTERN_ENGINE_TEST` program (line 320). -/
def test_text : List Byte :=
  bytes "This app checks for rootbeer and uses X509TrustManager for security."

/-- A buffer of 32 bytes that starts with `ab`. -/
def ab_buffer : List Byte := bytes "ab" ++ List.replicate 30 46

/-- A regex pattern with body `auth`. -/
def auth_pattern : PatternDefinition frag_engine :=
  PatternDefinition.new frag_engine "Auth" "auth keyword" "regex" (bytes "auth") "HIGH"
    ["all"] "auth_bypass"

/-- A regex pattern with body `authenticate`. -/
def authenticate_pattern : PatternDefinition frag_engine :=
  PatternDefinition.new frag_engine "Authenticate" "authenticate keyword" "regex"
    (bytes "authenticate") "HIGH" ["all"] "auth_bypass"

/-- The compiled form of the body `auth`. -/
def auth_regex : List (List Item) :=
  [[⟨false, [97], .one⟩, ⟨false, [117], .one⟩, ⟨false, [116], .one⟩, ⟨false, [104], .one⟩]]

/-- The compiled form of the body `authenticate`. -/
def authenticate_regex : List (List Item) :=
  [[⟨false, [97], .one⟩, ⟨false, [117], .one⟩, ⟨false, [116], .one⟩, ⟨false, [104], .one⟩,
    ⟨false, [101], .one⟩, ⟨false, [110], .one⟩, ⟨false, [116], .one⟩, ⟨false, [105], .one⟩,
    ⟨false, [99], .one⟩, ⟨false, [97], .one⟩, ⟨false, [116], .one⟩, ⟨false, [101], .one⟩]]

/-- The matches one catalog entry contributes to a scan of `text`. -/
def pattern_hits {E : RegexEngine} (text : List Byte) (pattern : PatternDefinition E) :
    List PatternMatch :=
  match pattern.compiled_regex with
  | some re => (E.find_all re text).map (make_match pattern text)
  | none => []

/-- The context as the specification words it: the window
`buffer[max(0, offset - C) .. min(len, offset + length + C))` over the natural numbers,
with the marker before it when `start > 0` and after it when `end < len`. -/
def context_spec (buffer : List Byte) (offset length C : Nat) : List Byte :=
  let start := offset - C
  let end_pos := min buffer.length (offset + length + C)
  (if start > 0 then ellipsis else []) ++ (buffer.drop start).take (end_pos - start)
    ++ (if end_pos < buffer.length then ellipsis else [])

/-! ## Definitions for the claims on `extract_context` and on the scan scenarios -/

/-- The lower bound of the context window as line 161 computes it. -/
def context_start (match_pos context_size : Nat) : Nat :=
  if match_pos < context_size then 0 else match_pos - context_size

/-- The upper bound of the context window as line 162 computes it, the sum taken in
`size_t`. -/
def context_end (content_len match_pos match_len context_size : Nat) : Nat :=
  min content_len (size_add (size_add match_pos match_len) context_size)

/-- The context with the markers placed as the claim on clamping words it: the marker
stands before the window exactly when the lower bound was clamped (`offset - C < 0`), and
after it exactly when the upper bound was clamped (`offset + length + C > len`). -/
def context_clamp_spec (buffer : List Byte) (offset length C : Nat) : List Byte :=
  let start := offset - C
  let end_pos := min buffer.length (offset + length + C)
  (if offset < C then ellipsis else []) ++ (buffer.drop start).take (end_pos - start)
    ++ (if offset + length + C > buffer.length then ellipsis else [])

/-- The buffer of the first end-to-end scenario. -/
def meta_inf_buffer : List Byte := bytes "a META-INF b META-INF"

/-- The buffer of the first end-to-end scenario followed by 11 spaces: 32 bytes. -/
def meta_inf_padded : List Byte := meta_inf_buffer ++ List.replicate 11 32

/-- A catalog entry of type `string` (a literal) with body `foo`, named `P1`. -/
def literal_p1 : PatternDefinition frag_engine :=
  PatternDefinition.new frag_engine "P1" "literal foo" "string" (bytes "foo") "LOW"
    ["all"] "none"

/-- A catalog entry of type `string` (a literal) with body `foo`, named `P2`. -/
def literal_p2 : PatternDefinition frag_engine :=
  PatternDefinition.new frag_engine "P2" "literal foo" "string" (bytes "foo") "LOW"
    ["all"] "none"

/-- A regex pattern with body `a*`, which matches the empty string. -/
def star_pattern : PatternDefinition frag_engine :=
  PatternDefinition.new frag_engine "Star" "zero or more a" "regex" (bytes "a*") "LOW"
    ["all"] "none"

/-! ## Definitions for the claims on the extraction loop and on termination -/

/-- The set bit positions of a 32-bit pattern, in increasing order. -/
def set_bits (m : Nat) : List Nat := (List.range 32).filter (fun b => m.testBit b)

/-- The number of set bits of a 32-bit pattern. -/
def popcount (m : Nat) : Nat := (set_bits m).length

/-- The number of iterations of the extraction loop of `scan_byte_simd` (lines 57-61): the
control flow of `extract_positions`, counting the passes through the loop body. -/
def extract_iterations : Nat → Nat → Nat
  | 0, _ => 0
  | fuel + 1, mask =>
    if mask = 0 then 0 else 1 + extract_iterations fuel (mask &&& (mask - 1))

/-- The bits of the `width` low positions of `mask`, numbered from `base`, in increasing
order. -/
def mask_bits : Nat → Nat → Nat → List Nat
  | 0, _, _ => []
  | width + 1, mask, base =>
    if mask % 2 = 1 then base :: mask_bits width (mask / 2) (base + 1)
    else mask_bits width (mask / 2) (base + 1)

/-- The value of the loop variable `i` of the chunk loop after `n` increments `i += 32`,
from `i = 0`. -/
def chunk_index : Nat → Nat
  | 0 => 0
  | n + 1 => size_add (chunk_index n) 32

/-- The buffer of the `SIMD_SCANNER_TEST` program (line 206), 72 bytes. -/
def simd_test_data : List Byte :=
  bytes "This is a test APK with META-INF and AndroidManifest.xml and classes.dex"

/-- The pattern list of the `SIMD_SCANNER_TEST` program (lines 208-214). -/
def simd_test_patterns : List (List Byte) :=
  [bytes "test", bytes "APK", bytes "META-INF", bytes "AndroidManifest.xml",
    bytes "classes.dex"]

/-- The offsets at which the literal `w` occurs in `data`, in increasing order. -/
def occurrences (data w : List Byte) : List Nat :=
  (List.range (data.length + 1)).filter
    (fun p => decide (p + w.length ≤ data.length) && ((data.drop p).take w.length == w))

/-- The offsets `scan_pattern_simd` reports for the pattern `w` on a buffer of at least 32
bytes: none for the empty pattern (line 15), the occurrences otherwise. -/
def literal_hits (data w : List Byte) : List Nat :=
  match w with
  | [] => []
  | _ :: _ => occurrences data w

/-! ## `CrackPattern` (include/pattern_engine.h) -/

/-- The exception that leaves a constructor. -/
inductive CtorError where
  /-- the exception `std::regex_error` -/
  | regex_error
  deriving DecidableEq, Repr

/-- Embedding of `struct CrackPattern`; `compiled_regex = none` is the default-constructed
`std::regex`. -/
structure CrackPattern (E : RegexEngine) where
  id : String
  name : String
  pattern_type : String
  pattern : List Byte
  category : String
  subcategory : String
  severity : String
  confidence : Float
  description : String
  fix_suggestion : String
  enabled : Bool
  compiled_regex : Option E.Regex

/-- Embedding of the constructor `CrackPattern::CrackPattern` (lines 38-56): the body
assigns `std::regex(pattern, icase)` outside any `try` block, so a `std::regex_error`
leaves the constructor. -/
def CrackPattern.new (E : RegexEngine) (id name type : String) (pat : List Byte)
    (cat subcat sev : String) (conf : Float) (desc fix_sug : String) (en : Bool) :
    Except CtorError (CrackPattern E) :=
  if type = "regex" then
    match E.compile pat with
    | some re => .ok ⟨id, name, type, pat, cat, subcat, sev, conf, desc, fix_sug, en, some re⟩
    | none => .error .regex_error
  else .ok ⟨id, name, type, pat, cat, subcat, sev, conf, desc, fix_sug, en, none⟩

/-! ## `PatternAnalyzer` (pattern_engine.cpp) -/

/-- Embedding of `struct PatternAnalysisResult`. -/
structure PatternAnalysisResult where
  found_patterns : List PatternMatch
  critical_count : Int
  high_count : Int
  medium_count : Int
  low_count : Int
  deriving DecidableEq, Repr

/-- The increment `c++` of an `int` counter, as a 32-bit two's-complement value. -/
def int_incr (c : Int) : Int := (2 ^ 31 + (c + 1)) % 2 ^ 32 - 2 ^ 31

/-- The body of the counting loop of `analyze_text` (lines 279-284). -/
def count_severity (result : PatternAnalysisResult) (pattern : PatternMatch) :
    PatternAnalysisResult :=
  if pattern.severity = "CRITICAL" then
    { result with critical_count := int_incr result.critical_count }
  else if pattern.severity = "HIGH" then
    { result with high_count := int_incr result.high_count }
  else if pattern.severity = "MEDIUM" then
    { result with medium_count := int_incr result.medium_count }
  else if pattern.severity = "LOW" then
    { result with low_count := int_incr result.low_count }
  else result

/-- Embedding of `PatternAnalyzer::analyze_text(text)` for an analyzer whose engine holds the
catalog `patterns`. -/
def analyze_text {E : RegexEngine} (patterns : List (PatternDefinition E)) (text : List Byte) :
    PatternAnalysisResult :=
  let found_patterns := find_patterns_in_text patterns text
  found_patterns.foldl count_severity ⟨found_patterns, 0, 0, 0, 0⟩

/-- Embedding of `struct AnalysisResult`; the `std::map` is its list of entries. -/
structure AnalysisResult where
  vulnerabilities : List String
  protections : List String
  recommendations : List String
  security_score : Int
  detailed_results : List (String × String)
  engines_used : Int
  success : Bool
  deriving DecidableEq, Repr

/-- Multiplication of two `size_t` values: wraps modulo `2 ^ 64`. -/
def size_mul (a b : Nat) : Nat := (a * b) % SIZE_MOD

/-- Conversion of an `int` to `size_t`: the value modulo `2 ^ 64`. -/
def int_to_size (i : Int) : Nat := (i % 2 ^ 64).toNat

/-- The list `dangerous_permissions` of `analyze_permissions` (lines 115-120). -/
def dangerous_permissions : List String :=
  ["SEND_SMS", "RECEIVE_SMS", "READ_SMS", "READ_CONTACTS", "WRITE_CONTACTS",
    "READ_CALL_LOG", "WRITE_CALL_LOG", "READ_EXTERNAL_STORAGE",
    "WRITE_EXTERNAL_STORAGE", "CAMERA", "RECORD_AUDIO", "ACCESS_FINE_LOCATION",
    "ACCESS_COARSE_LOCATION", "SYSTEM_ALERT_WINDOW", "PACKAGE_USAGE_STATS"]

/-- Embedding of `APKProcessor::analyze_permissions` (lines 111-127). -/
def analyze_permissions (result : AnalysisResult) : AnalysisResult :=
  { result with
    vulnerabilities := result.vulnerabilities ++
      (dangerous_permissions.take (min 5 dangerous_permissions.length)).map
        (fun perm => "Excessive Permission: " ++ perm) }

/-- Embedding of `APKProcessor::analyze_code_patterns` (lines 129-143). -/
def analyze_code_patterns (result : AnalysisResult) : AnalysisResult :=
  { result with
    vulnerabilities := result.vulnerabilities ++ ["Hardcoded API Key", "Weak Cryptography"]
    protections := result.protections ++ ["Certificate Pinning", "Root Detection", "Anti-Debug"] }

/-- Embedding of `APKProcessor::analyze_config_files` (lines 145-151). -/
def analyze_config_files (result : AnalysisResult) : AnalysisResult :=
  { result with vulnerabilities := result.vulnerabilities ++ ["Cleartext Traffic Allowed"] }

/-- Embedding of `APKProcessor::calculate_security_score` (lines 153-168).  In
`score -= size * 5` and `score += size * 3` the `int` is converted to `size_t`, the
operation is done modulo `2 ^ 64`, and the result is converted back to `int`. -/
def calculate_security_score (result : AnalysisResult) : Int :=
  let score : Int := 100
  let score := to_int (size_sub (int_to_size score) (size_mul result.vulnerabilities.length 5))
  let score := to_int (size_add (int_to_size score) (size_mul result.protections.length 3))
  let score := if score < 0 then 0 else score
  let score := if score > 100 then 100 else score
  score

/-- Embedding of `APKProcessor::analyze()` for a processor built on `apk_path`; the path is
only written to the log. -/
def analyze (_apk_path : String) : AnalysisResult :=
  let result : AnalysisResult := ⟨[], [], [], 0, [], 0, true⟩
  let result := { result with success := true }
  let result := analyze_permissions result
  let result := analyze_code_patterns result
  let result := analyze_config_files result
  let result := { result with security_score := calculate_security_score result }
  { result with engines_used := 1 }

/-- The `int` a value is converted to: its representative modulo `2 ^ 32` in the range
`[-2 ^ 31, 2 ^ 31)`. -/
def int_wrap (i : Int) : Int := (2 ^ 31 + i) % 2 ^ 32 - 2 ^ 31

/-- Addition of two `int` values, modulo `2 ^ 32` in two's complement. -/
def int_add (a b : Int) : Int := int_wrap (a + b)

/-- Multiplication of two `int` values, modulo `2 ^ 32` in two's complement. -/
def int_mul (a b : Int) : Int := int_wrap (a * b)

/-- Embedding of `APKProcessor::calculate_stability_score` (lines 170-187): the loop
increments `critical_count` once per vulnerability, and the only test after the sum is
`stability > 100`. -/
def calculate_stability_score (analysis : AnalysisResult) : Int :=
  let base_score := analysis.security_score
  let critical_count :=
    analysis.vulnerabilities.foldl (fun critical_count _vuln => int_incr critical_count) 0
  let stability := int_add base_score (int_mul critical_count 2)
  let stability := if stability > 100 then 100 else stability
  stability

/-- The number stored, as a decimal string, under the key `stability_score` of the map
that `APKProcessor::process(mode, analysis)` returns (lines 64-108): the entry is written
in the branch `copy_result == 0`, where `copy_result` is the value `std::system` returned
for the copy command, and is absent in the other branch. -/
def process_stability_score (copy_result : Int) (analysis : AnalysisResult) : Option Int :=
  if copy_result = 0 then some (calculate_stability_score analysis) else none

/-- The security score as the specification states it, computed over the integers:
`clamp(100 - 5 * v + 3 * p, 0, 100)` for `v` vulnerabilities and `p` protections. -/
def security_score_spec (v p : Nat) : Int :=
  max 0 (min 100 (100 - 5 * (v : Int) + 3 * (p : Int)))

/-! ## Further scenario inputs -/

/-- A catalog entry of type `regex` with the malformed body `(unterminated`. -/
def unterminated_pattern : PatternDefinition frag_engine :=
  PatternDefinition.new frag_engine "Bad" "malformed" "regex" (bytes "(unterminated") "LOW"
    ["all"] "none"

theorem match_indices_append (l₁ l₂ : List Byte) (target : Byte) (base : Nat) :
    match_indices (l₁ ++ l₂) target base
      = match_indices l₁ target base ++ match_indices l₂ target (base + l₁.length) := by
  induction l₁ generalizing base with
  | nil => simp [match_indices]
  | cons b rest ih =>
    have hlen : base + 1 + rest.length = base + (b :: rest).length := by
      simp only [List.length_cons]; omega
    rw [List.cons_append, match_indices, match_indices, ih (base + 1), hlen]
    split <;> simp

theorem tail_loop_eq (data : List Byte) (target : Byte) :
    ∀ (fuel i : Nat) (acc : List Nat), data.length - i ≤ fuel →
      tail_loop fuel data target i acc = acc ++ match_indices (data.drop i) target i := by
  intro fuel
  induction fuel with
  | zero =>
    intro i acc h
    have hi : data.length ≤ i := by omega
    simp [tail_loop, List.drop_eq_nil_of_le hi, match_indices]
  | succ fuel ih =>
    intro i acc h
    unfold tail_loop
    by_cases hi : i < data.length
    · rw [dif_pos hi, ih (i + 1) _ (by omega)]
      rw [List.drop_eq_getElem_cons hi]
      simp only [match_indices, List.get_eq_getElem]
      split <;> simp
    · rw [dif_neg hi]
      have hi2 : data.length ≤ i := by omega
      simp [List.drop_eq_nil_of_le hi2, match_indices]

theorem scan_byte_scalar_eq (data : List Byte) (target : Byte) :
    scan_byte_scalar data target = match_indices data target 0 := by
  unfold scan_byte_scalar
  rw [tail_loop_eq data target data.length 0 [] (by omega)]
  simp

theorem ctz_aux_succ : ∀ (fuel mask : Nat), mask ≠ 0 → mask < 2 ^ fuel →
    ctz_aux (fuel + 1) mask = ctz_aux fuel mask := by
  intro fuel
  induction fuel with
  | zero => intro mask h0 h; simp at h; exact absurd h h0
  | succ fuel ih =>
    intro mask h0 h
    show (if mask % 2 = 1 then 0 else 1 + ctz_aux (fuel + 1) (mask / 2))
      = (if mask % 2 = 1 then 0 else 1 + ctz_aux fuel (mask / 2))
    by_cases hm : mask % 2 = 1
    · simp [hm]
    · simp only [hm, if_false]
      rw [ih (mask / 2) (by omega) (by rw [pow_succ] at h; omega)]

theorem ctz_double (m : Nat) (h0 : m ≠ 0) (h : m < 2 ^ 31) : ctz (2 * m) = 1 + ctz m := by
  unfold ctz
  rw [ctz_aux_succ 31 m h0 h]
  rw [ctz_aux]
  have h1 : (2 * m) % 2 ≠ 1 := by omega
  have h2 : 2 * m / 2 = m := by omega
  simp [h1, h2]

theorem ctz_odd (m : Nat) : ctz (1 + 2 * m) = 0 := by
  unfold ctz
  rw [ctz_aux]
  have h1 : (1 + 2 * m) % 2 = 1 := by omega
  simp [h1]

theorem land_pred_double (m : Nat) (h0 : m ≠ 0) :
    (2 * m) &&& (2 * m - 1) = 2 * (m &&& (m - 1)) := by
  have h1 : 2 * m = Nat.bit false m := by simp [Nat.bit_val]
  have h2 : 2 * m - 1 = Nat.bit true (m - 1) := by simp [Nat.bit_val]; omega
  rw [h2, h1, Nat.land_bit]
  simp [Nat.bit_val]

theorem land_pred_odd (m : Nat) : (1 + 2 * m) &&& (1 + 2 * m - 1) = 2 * m := by
  have h1 : 1 + 2 * m = Nat.bit true m := by simp [Nat.bit_val]; omega
  have h2 : 1 + 2 * m - 1 = Nat.bit false m := by simp [Nat.bit_val]
  rw [h2, h1, Nat.land_bit]
  simp [Nat.bit_val]

theorem extract_positions_double : ∀ (fuel m i : Nat) (acc : List Nat), m < 2 ^ 31 →
    extract_positions fuel (2 * m) i acc = extract_positions fuel m (i + 1) acc := by
  intro fuel
  induction fuel with
  | zero => intro m i acc _; simp [extract_positions]
  | succ fuel ih =>
    intro m i acc h
    unfold extract_positions
    by_cases hm : m = 0
    · simp [hm]
    · have h2 : 2 * m ≠ 0 := by omega
      rw [if_neg h2, if_neg hm, land_pred_double m hm, ctz_double m hm h]
      have hle : m &&& (m - 1) < 2 ^ 31 := lt_of_le_of_lt Nat.and_le_left h
      rw [ih _ i _ hle]
      have : i + (1 + ctz m) = i + 1 + ctz m := by omega
      rw [this]

theorem movemask_cmpeq_lt (chunk : List Byte) (target : Byte) :
    movemask_cmpeq chunk target < 2 ^ chunk.length := by
  induction chunk with
  | nil => simp [movemask_cmpeq]
  | cons b rest ih =>
    simp only [movemask_cmpeq, List.length_cons, pow_succ]
    split <;> omega

theorem extract_positions_movemask (target : Byte) :
    ∀ (chunk : List Byte) (fuel i : Nat) (acc : List Nat),
      chunk.length ≤ fuel → chunk.length ≤ 32 →
      extract_positions fuel (movemask_cmpeq chunk target) i acc
        = acc ++ match_indices chunk target i := by
  intro chunk
  induction chunk with
  | nil => intro fuel i acc _ _; cases fuel <;> simp [movemask_cmpeq, extract_positions, match_indices]
  | cons b rest ih =>
    intro fuel i acc hf h32
    simp only [List.length_cons] at hf h32
    have hlt : movemask_cmpeq rest target < 2 ^ 31 :=
      lt_of_lt_of_le (movemask_cmpeq_lt rest target) (Nat.pow_le_pow_right (by omega) (by omega))
    by_cases hb : b = target
    · obtain ⟨f, rfl⟩ : ∃ f, fuel = f + 1 := ⟨fuel - 1, by omega⟩
      simp only [movemask_cmpeq, match_indices, hb, if_true]
      unfold extract_positions
      have hne : 1 + 2 * movemask_cmpeq rest target ≠ 0 := by omega
      rw [if_neg hne, land_pred_odd, ctz_odd, extract_positions_double _ _ _ _ hlt,
        ih f (i + 1) _ (by omega) (by omega)]
      simp
    · simp only [movemask_cmpeq, match_indices, hb, if_false, Nat.zero_add]
      rw [extract_positions_double _ _ _ _ hlt, ih fuel (i + 1) _ (by omega) (by omega)]

theorem size_sub_of_le (a b : Nat) (hb : b ≤ a) (ha : a < 2 ^ 64) : size_sub a b = a - b := by
  unfold size_sub SIZE_MOD
  have : 2 ^ 64 + a - b = (a - b) + 2 ^ 64 := by omega
  rw [this, Nat.add_mod_right, Nat.mod_eq_of_lt (by omega)]

theorem size_sub_of_lt (a b : Nat) (hb : a < b) (hb2 : b < 2 ^ 64) :
    size_sub a b = 2 ^ 64 - (b - a) := by
  unfold size_sub SIZE_MOD
  rw [Nat.mod_eq_of_lt (by omega)]
  omega

theorem scan_byte_simd_eq_finish (data : List Byte) (target : Byte) :
    scan_byte_simd data target
      = finish_scan data target (chunk_loop (data.length / 32 + 1) data target 0 []) := by
  unfold scan_byte_simd finish_scan
  rfl

theorem chunk_loop_finish (data : List Byte) (target : Byte)
    (h32 : 32 ≤ data.length) (h64 : data.length < 2 ^ 64) :
    ∀ (fuel i : Nat) (acc : List Nat), i ≤ data.length → data.length - i < 32 * fuel →
      finish_scan data target (chunk_loop fuel data target i acc)
        = .ok (acc ++ match_indices (data.drop i) target i) := by
  intro fuel
  induction fuel with
  | zero => intro i acc _ h; omega
  | succ fuel ih =>
    intro i acc hi hf
    unfold chunk_loop
    have hsub : size_sub data.length 32 = data.length - 32 := size_sub_of_le _ _ h32 h64
    by_cases hg : i + 32 ≤ data.length
    · have hguard : chunk_guard i data.length = true := by
        simp only [chunk_guard, hsub, decide_eq_true_eq]; omega
      have hadd : size_add i 32 = i + 32 := by
        unfold size_add SIZE_MOD; exact Nat.mod_eq_of_lt (by omega)
      have hlen : ((data.drop i).take 32).length = 32 := by
        simp only [List.length_take, List.length_drop]; omega
      rw [if_pos hguard]
      simp only [loadu_si256, if_pos hg, hadd]
      rw [extract_positions_movemask target _ 32 i acc (by omega) (by omega),
        ih (i + 32) _ hg (by omega)]
      have hsplit : data.drop i = (data.drop i).take 32 ++ data.drop (i + 32) := by
        rw [← List.drop_drop, List.take_append_drop]
      conv_rhs => rw [hsplit, match_indices_append, hlen]
      simp
    · have hguard : chunk_guard i data.length = false := by
        simp only [chunk_guard, hsub, decide_eq_false_iff_not]; omega
      rw [hguard]
      simp only [Bool.false_eq_true, if_false, finish_scan]
      rw [tail_loop_eq data target _ i acc (by omega)]

/-- On a buffer of at least 32 bytes `scan_byte_simd` returns the offsets of the target
byte, in increasing order. -/
theorem scan_byte_simd_long (data : List Byte) (target : Byte)
    (h32 : 32 ≤ data.length) (h64 : data.length < 2 ^ 64) :
    scan_byte_simd data target = .ok (match_indices data target 0) := by
  rw [scan_byte_simd_eq_finish,
    chunk_loop_finish data target h32 h64 _ 0 [] (by omega) (by omega)]
  simp

/-- On a buffer shorter than 32 bytes the bound `data_len - 32` wraps around, the chunk loop
is entered at `i = 0` and its 32-byte load leaves the buffer. -/
theorem scan_byte_simd_short (data : List Byte) (target : Byte) (h : data.length < 32) :
    scan_byte_simd data target = .error (.out_of_bounds 0 32 data.length) := by
  have hsub : size_sub data.length 32 = 2 ^ 64 - (32 - data.length) :=
    size_sub_of_lt _ _ h (by norm_num)
  have hguard : chunk_guard 0 data.length = true := by
    simp [chunk_guard]
  have hload : loadu_si256 data 0 = .error (.out_of_bounds 0 32 data.length) := by
    unfold loadu_si256
    rw [if_neg (by omega)]
  unfold scan_byte_simd
  have h0 : data.length / 32 = 0 := Nat.div_eq_of_lt h
  rw [h0]
  simp only [chunk_loop, hguard, hload, if_true]

theorem mem_match_indices (data : List Byte) (target : Byte) (base k : Nat) :
    k ∈ match_indices data target base ↔
      base ≤ k ∧ data[k - base]? = some target := by
  induction data generalizing base with
  | nil => simp [match_indices]
  | cons b rest ih =>
    unfold match_indices
    by_cases hb : b = target
    · rw [if_pos hb, List.mem_cons, ih]
      constructor
      · rintro (rfl | ⟨h1, h2⟩)
        · simp [hb]
        · refine ⟨by omega, ?_⟩
          have : k - base = (k - (base + 1)) + 1 := by omega
          rw [this, List.getElem?_cons_succ]; exact h2
      · rintro ⟨h1, h2⟩
        by_cases hk : k = base
        · exact Or.inl hk
        · right
          refine ⟨by omega, ?_⟩
          have : k - base = (k - (base + 1)) + 1 := by omega
          rw [this, List.getElem?_cons_succ] at h2; exact h2
    · rw [if_neg hb, ih]
      constructor
      · rintro ⟨h1, h2⟩
        refine ⟨by omega, ?_⟩
        have : k - base = (k - (base + 1)) + 1 := by omega
        rw [this, List.getElem?_cons_succ]; exact h2
      · rintro ⟨h1, h2⟩
        by_cases hk : k = base
        · subst hk
          simp at h2
          exact absurd h2 hb
        · refine ⟨by omega, ?_⟩
          have : k - base = (k - (base + 1)) + 1 := by omega
          rw [this, List.getElem?_cons_succ] at h2; exact h2

/-! ### `scan_pattern_simd` on buffers of at least 32 bytes -/

theorem verify_candidates_eq (data pattern : List Byte) :
    ∀ (candidates acc : List Nat),
      verify_candidates data pattern candidates acc
        = acc ++ candidates.filter (fun pos =>
            decide (pos + pattern.length ≤ data.length)
              && memcmp_eq (data.drop pos) pattern pattern.length) := by
  intro candidates
  induction candidates with
  | nil => intro acc; simp [verify_candidates]
  | cons pos rest ih =>
    intro acc
    unfold verify_candidates
    rw [ih]
    by_cases h1 : pos + pattern.length ≤ data.length
    · by_cases h2 : memcmp_eq (data.drop pos) pattern pattern.length = true
      · simp [List.filter_cons, h1, h2]
      · simp [List.filter_cons, h1, h2]
    · simp [List.filter_cons, h1]

theorem match_indices_pairwise_lt (data : List Byte) (target : Byte) :
    ∀ (base : Nat), (match_indices data target base).Pairwise (fun a b => a < b) := by
  induction data with
  | nil => intro base; simp [match_indices]
  | cons b rest ih =>
    intro base
    unfold match_indices
    split
    · refine List.Pairwise.cons ?_ (ih (base + 1))
      intro k hk
      have := ((mem_match_indices rest target (base + 1) k).mp hk).1
      omega
    · exact ih (base + 1)

/-- On a buffer of at least 32 bytes the offsets returned by `scan_pattern_simd` for a
non-empty pattern are exactly the offsets at which the pattern occurs, in increasing
order. -/
theorem scan_pattern_simd_long (data pattern : List Byte) (hne : pattern ≠ [])
    (h32 : 32 ≤ data.length) (h64 : data.length < 2 ^ 64) :
    ∃ hits, scan_pattern_simd data pattern = .ok hits ∧
      hits.Pairwise (fun a b => a < b) ∧
      ∀ k, k ∈ hits ↔
        k + pattern.length ≤ data.length ∧ (data.drop k).take pattern.length = pattern := by
  cases pattern with
  | nil => exact absurd rfl hne
  | cons c rest =>
    have hfirst : ∀ k, k + (c :: rest).length ≤ data.length →
        (data.drop k).take (c :: rest).length = c :: rest → data[k]? = some c := by
      intro k hk heq
      have hlt : k < data.length := by simp only [List.length_cons] at hk; omega
      rw [List.drop_eq_getElem_cons hlt] at heq
      simp only [List.length_cons, List.take_succ_cons, List.cons.injEq] at heq
      rw [List.getElem?_eq_getElem hlt, heq.1]
    unfold scan_pattern_simd
    simp only [scan_byte_simd_long data c h32 h64]
    by_cases hgt : (c :: rest).length > data.length
    · rw [if_pos hgt]
      refine ⟨[], rfl, List.Pairwise.nil, ?_⟩
      intro k
      simp only [List.not_mem_nil, false_iff, not_and]
      intro hk; omega
    · rw [if_neg hgt]
      by_cases h1 : (c :: rest).length = 1
      · rw [if_pos h1]
        refine ⟨_, rfl, match_indices_pairwise_lt data c 0, ?_⟩
        intro k
        have hrest : rest = [] := by
          simp only [List.length_cons, Nat.add_eq_right] at h1
          exact List.length_eq_zero.mp h1
        subst hrest
        rw [mem_match_indices]
        simp only [Nat.zero_le, Nat.sub_zero, true_and, List.length_cons, List.length_nil]
        constructor
        · intro hk
          have hlt : k < data.length := by
            by_contra hcon
            rw [List.getElem?_eq_none (by omega)] at hk
            exact absurd hk (by simp)
          refine ⟨by omega, ?_⟩
          rw [List.drop_eq_getElem_cons hlt]
          rw [List.getElem?_eq_getElem hlt] at hk
          simp only [Option.some.injEq] at hk
          simp [hk]
        · rintro ⟨hk, heq⟩
          exact hfirst k (by simpa using hk) (by simpa using heq)
      · rw [if_neg h1]
        refine ⟨_, rfl, ?_, ?_⟩
        · rw [verify_candidates_eq]
          simp only [List.nil_append]
          exact List.Pairwise.sublist (List.filter_sublist _) (match_indices_pairwise_lt data c 0)
        · intro k
          rw [verify_candidates_eq]
          simp only [List.nil_append, List.mem_filter, Bool.and_eq_true, decide_eq_true_eq,
            memcmp_eq, beq_iff_eq, mem_match_indices, Nat.zero_le, Nat.sub_zero, true_and,
            List.take_length]
          constructor
          · rintro ⟨_, h2, h3⟩
            exact ⟨h2, h3⟩
          · rintro ⟨h2, h3⟩
            exact ⟨hfirst k h2 h3, h2, h3⟩

/-! ### The order used by `std::sort` -/

theorem string_lt_irrefl (a : List Byte) : string_lt a a = false := by
  induction a with
  | nil => rfl
  | cons x xs ih => simp [string_lt, ih]

theorem string_lt_asymm : ∀ (a b : List Byte), string_lt a b = true → string_lt b a = false := by
  intro a
  induction a with
  | nil => intro b _; cases b <;> simp [string_lt]
  | cons x xs ih =>
    intro b h
    cases b with
    | nil => simp [string_lt] at h
    | cons y ys =>
      simp only [string_lt, Bool.or_eq_true, Bool.and_eq_true, decide_eq_true_eq] at h
      simp only [string_lt, Bool.or_eq_false_iff, Bool.and_eq_false_iff, decide_eq_false_iff_not]
      rcases h with h | ⟨h1, h2⟩
      · exact ⟨by omega, Or.inl (by omega)⟩
      · exact ⟨by omega, Or.inr (ih ys h2)⟩

theorem string_lt_trans : ∀ (a b c : List Byte),
    string_lt a b = true → string_lt b c = true → string_lt a c = true := by
  intro a
  induction a with
  | nil =>
    intro b c h1 h2
    cases c with
    | nil => cases b <;> simp [string_lt] at h2
    | cons z zs => simp [string_lt]
  | cons x xs ih =>
    intro b c h1 h2
    cases b with
    | nil => simp [string_lt] at h1
    | cons y ys =>
      cases c with
      | nil => simp [string_lt] at h2
      | cons z zs =>
        simp only [string_lt, Bool.or_eq_true, Bool.and_eq_true, decide_eq_true_eq] at h1 h2 ⊢
        rcases h1 with h1 | ⟨h1, h1t⟩ <;> rcases h2 with h2 | ⟨h2, h2t⟩
        · exact Or.inl (by omega)
        · exact Or.inl (by omega)
        · exact Or.inl (by omega)
        · exact Or.inr ⟨by omega, ih ys zs h1t h2t⟩

theorem string_lt_connex : ∀ (a b : List Byte),
    string_lt a b = false → string_lt b a = false → a = b := by
  intro a
  induction a with
  | nil => intro b h _; cases b with
    | nil => rfl
    | cons y ys => simp [string_lt] at h
  | cons x xs ih =>
    intro b h1 h2
    cases b with
    | nil => simp [string_lt] at h2
    | cons y ys =>
      simp only [string_lt, Bool.or_eq_false_iff, Bool.and_eq_false_iff,
        decide_eq_false_iff_not] at h1 h2
      have hxy : x.toNat = y.toNat := by omega
      have hx : x = y := UInt8.toNat.inj hxy
      have t1 : string_lt xs ys = false := by
        rcases h1.2 with h | h
        · exact absurd hxy h
        · exact h
      have t2 : string_lt ys xs = false := by
        rcases h2.2 with h | h
        · exact absurd hxy.symm h
        · exact h
      rw [hx, ih ys t1 t2]

theorem string_lt_neg_trans (a b c : List Byte)
    (h1 : string_lt b a = false) (h2 : string_lt c b = false) : string_lt c a = false := by
  by_cases hab : string_lt a b = true
  · by_cases hbc : string_lt b c = true
    · exact string_lt_asymm a c (string_lt_trans a b c hab hbc)
    · have : b = c := string_lt_connex b c (by simpa using hbc) h2
      subst this; exact h1
  · have : a = b := string_lt_connex a b (by simpa using hab) h1
    subst this; exact h2

theorem pair_le_iff (x y : Nat × List Byte) :
    pair_le x y ↔ x.1 < y.1 ∨ (x.1 = y.1 ∧ string_lt y.2 x.2 = false) := by
  unfold pair_le pair_lt
  simp only [Bool.or_eq_false_iff, Bool.and_eq_false_iff, decide_eq_false_iff_not,
    Bool.not_eq_false', decide_eq_true_eq]
  constructor
  · rintro ⟨h1, h2 | h2⟩
    · exact Or.inl h2
    · by_cases h : x.1 < y.1
      · exact Or.inl h
      · exact Or.inr ⟨by omega, h2⟩
  · rintro (h | ⟨h1, h2⟩)
    · exact ⟨by omega, Or.inl h⟩
    · exact ⟨by omega, Or.inr h2⟩

theorem pair_le_total (x y : Nat × List Byte) : pair_le x y ∨ pair_le y x := by
  rw [pair_le_iff, pair_le_iff]
  rcases Nat.lt_trichotomy x.1 y.1 with h | h | h
  · exact Or.inl (Or.inl h)
  · by_cases hs : string_lt y.2 x.2 = true
    · exact Or.inr (Or.inr ⟨h.symm, string_lt_asymm _ _ hs⟩)
    · exact Or.inl (Or.inr ⟨h, by simpa using hs⟩)
  · exact Or.inr (Or.inl h)

theorem pair_le_trans (x y z : Nat × List Byte) (h1 : pair_le x y) (h2 : pair_le y z) :
    pair_le x z := by
  rw [pair_le_iff] at h1 h2 ⊢
  rcases h1 with h1 | ⟨h1, s1⟩ <;> rcases h2 with h2 | ⟨h2, s2⟩
  · exact Or.inl (by omega)
  · exact Or.inl (by omega)
  · exact Or.inl (by omega)
  · exact Or.inr ⟨by omega, string_lt_neg_trans _ _ _ s1 s2⟩

theorem std_sort_sorted (l : List (Nat × List Byte)) : (std_sort l).Sorted pair_le :=
  @List.sorted_insertionSort _ pair_le _ ⟨pair_le_total⟩ ⟨pair_le_trans⟩ l

theorem std_sort_perm (l : List (Nat × List Byte)) : (std_sort l).Perm l :=
  List.perm_insertionSort pair_le l

/-! ### The multi-pattern scan on buffers of at least 32 bytes -/

theorem scan_pattern_simd_long_ok (data pattern : List Byte)
    (h32 : 32 ≤ data.length) (h64 : data.length < 2 ^ 64) :
    ∃ hits, scan_pattern_simd data pattern = .ok hits := by
  unfold scan_pattern_simd
  cases pattern with
  | nil => exact ⟨[], rfl⟩
  | cons c rest =>
    simp only [scan_byte_simd_long data c h32 h64]
    split
    · exact ⟨_, rfl⟩
    · split
      · exact ⟨_, rfl⟩
      · exact ⟨_, rfl⟩

theorem collect_matches_long_ok (data : List Byte)
    (h32 : 32 ≤ data.length) (h64 : data.length < 2 ^ 64) :
    ∀ (patterns : List (List Byte)) (acc : List (Nat × List Byte)),
      ∃ all_matches, collect_matches data patterns acc = .ok all_matches := by
  intro patterns
  induction patterns with
  | nil => intro acc; exact ⟨acc, rfl⟩
  | cons p rest ih =>
    intro acc
    obtain ⟨hits, hh⟩ := scan_pattern_simd_long_ok data p h32 h64
    simp only [collect_matches, hh]
    exact ih _

theorem scan_multiple_long_sorted (data : List Byte) (patterns : List (List Byte))
    (h32 : 32 ≤ data.length) (h64 : data.length < 2 ^ 64) :
    ∃ result, scan_multiple_patterns_simd data patterns = .ok result ∧
      result.Pairwise (fun x y => x.1 < y.1 ∨ (x.1 = y.1 ∧ string_lt y.2 x.2 = false)) := by
  obtain ⟨all_matches, hc⟩ := collect_matches_long_ok data h32 h64 patterns []
  refine ⟨std_sort all_matches, ?_, ?_⟩
  · simp only [scan_multiple_patterns_simd, hc]
  · have hs := std_sort_sorted all_matches
    exact List.Pairwise.imp (fun {a b} h => (pair_le_iff a b).mp h) hs

/-! ### `find_patterns_in_text` and `find_patterns_by_category` -/

theorem to_int_of_lt (n : Nat) (h : n < 2 ^ 31) : to_int n = (n : Int) := by
  unfold to_int
  omega

theorem push_matches_eq {E : RegexEngine} (pattern : PatternDefinition E) (text : List Byte) :
    ∀ (ms : List (Nat × Nat)) (found : List PatternMatch),
      push_matches pattern text ms found = found ++ ms.map (make_match pattern text) := by
  intro ms
  induction ms with
  | nil => intro found; simp [push_matches]
  | cons m rest ih => intro found; simp [push_matches, ih]

theorem find_patterns_loop_eq {E : RegexEngine} (text : List Byte) :
    ∀ (patterns : List (PatternDefinition E)) (found : List PatternMatch),
      find_patterns_loop text patterns found
        = found ++ patterns.flatMap (pattern_hits text) := by
  intro patterns
  induction patterns with
  | nil => intro found; simp [find_patterns_loop]
  | cons p rest ih =>
    intro found
    unfold find_patterns_loop
    cases hp : p.compiled_regex with
    | none => simp [ih, pattern_hits, hp]
    | some re => simp [ih, pattern_hits, hp, push_matches_eq]

theorem find_patterns_in_text_eq {E : RegexEngine} (patterns : List (PatternDefinition E))
    (text : List Byte) :
    find_patterns_in_text patterns text = patterns.flatMap (pattern_hits text) := by
  unfold find_patterns_in_text
  rw [find_patterns_loop_eq]
  simp

theorem find_patterns_in_text_append {E : RegexEngine} (p q : List (PatternDefinition E))
    (text : List Byte) :
    find_patterns_in_text (p ++ q) text
      = find_patterns_in_text p text ++ find_patterns_in_text q text := by
  simp [find_patterns_in_text_eq]

theorem find_patterns_in_text_single {E : RegexEngine} (p : PatternDefinition E)
    (text : List Byte) : find_patterns_in_text [p] text = pattern_hits text p := by
  simp [find_patterns_in_text_eq]

theorem find_by_category_loop_eq {E : RegexEngine} (text : List Byte) (category : String) :
    ∀ (patterns : List (PatternDefinition E)) (found : List PatternMatch),
      find_by_category_loop text category patterns found
        = find_patterns_loop text (patterns.filter (fun p => applies_to p category)) found := by
  intro patterns
  induction patterns with
  | nil => intro found; simp [find_by_category_loop, find_patterns_loop]
  | cons p rest ih =>
    intro found
    unfold find_by_category_loop
    by_cases ha : applies_to p category = true
    · have hf : (p :: rest).filter (fun p => applies_to p category)
          = p :: rest.filter (fun p => applies_to p category) := by
        simp [List.filter_cons, ha]
      rw [if_pos ha, hf]
      conv_rhs => unfold find_patterns_loop
      cases hp : p.compiled_regex with
      | none => simp [ih]
      | some re => simp [ih]
    · have hf : (p :: rest).filter (fun p => applies_to p category)
          = rest.filter (fun p => applies_to p category) := by
        simp [List.filter_cons, ha]
      rw [if_neg ha, hf]
      exact ih found

theorem foldl_add_pattern {E : RegexEngine} (added : List (PatternDefinition E)) :
    ∀ (patterns : List (PatternDefinition E)),
      added.foldl add_pattern patterns = patterns ++ added := by
  induction added with
  | nil => intro patterns; simp
  | cons p rest ih => intro patterns; simp [List.foldl, ih, add_pattern]

theorem pattern_hits_sorted {E : RegexEngine} (hE : E.Lawful) (p : PatternDefinition E)
    (text : List Byte) (hlen : text.length < 2 ^ 31) :
    (pattern_hits text p).Pairwise (fun a b => a.position ≤ b.position) := by
  unfold pattern_hits
  cases hp : p.compiled_regex with
  | none => simp
  | some re =>
    obtain ⟨hin, hord⟩ := hE re text
    simp only
    rw [List.pairwise_map]
    refine List.Pairwise.imp_of_mem ?_ hord
    intro a b ha hb hab
    have h1 := hin a ha
    have h2 := hin b hb
    simp only [make_match]
    rw [to_int_of_lt a.1 (by omega), to_int_of_lt b.1 (by omega)]
    omega

/-! ### The fragment engine keeps the promises of the regex library -/

theorem star_loop_bound (ok : Byte → Bool) (k : List Byte → Nat → Option Nat)
    (hk : ∀ text n r, k text n = some r → n ≤ r ∧ r ≤ n + text.length) :
    ∀ (text : List Byte) (n r : Nat),
      star_loop ok k text n = some r → n ≤ r ∧ r ≤ n + text.length := by
  intro text
  induction text with
  | nil => intro n r h; exact hk [] n r (by simpa [star_loop] using h)
  | cons c t ih =>
    intro n r h
    unfold star_loop at h
    by_cases hc : ok c = true
    · rw [if_pos hc] at h
      cases hs : star_loop ok k t (n + 1) with
      | none => rw [hs] at h; exact hk _ n r h
      | some x =>
        rw [hs] at h
        simp only [Option.some.injEq] at h
        subst h
        have := ih (n + 1) x hs
        simp only [List.length_cons]
        omega
    · rw [if_neg hc] at h
      exact hk _ n r h

theorem match_item_bound (it : Item) (k : List Byte → Nat → Option Nat)
    (hk : ∀ text n r, k text n = some r → n ≤ r ∧ r ≤ n + text.length) :
    ∀ (text : List Byte) (n r : Nat),
      match_item it k text n = some r → n ≤ r ∧ r ≤ n + text.length := by
  intro text n r h
  unfold match_item at h
  cases hq : it.quant with
  | one =>
    rw [hq] at h
    cases text with
    | nil => simp at h
    | cons c t =>
      simp only at h
      split at h
      · have := hk t (n + 1) r h
        simp only [List.length_cons]; omega
      · exact absurd h (by simp)
  | opt =>
    rw [hq] at h
    cases text with
    | nil => simp only at h; exact hk [] n r h
    | cons c t =>
      simp only at h
      split at h
      · cases hm : k t (n + 1) with
        | none => rw [hm] at h; exact hk _ n r h
        | some x =>
          rw [hm] at h
          simp only [Option.some.injEq] at h
          subst h
          have := hk t (n + 1) x hm
          simp only [List.length_cons]; omega
      · exact hk _ n r h
  | star =>
    rw [hq] at h
    exact star_loop_bound it.accepts k hk text n r h

theorem match_items_bound (accept : Nat → Bool) :
    ∀ (items : List Item) (text : List Byte) (n r : Nat),
      match_items accept items text n = some r → n ≤ r ∧ r ≤ n + text.length := by
  intro items
  induction items with
  | nil =>
    intro text n r h
    unfold match_items at h
    split at h
    · simp only [Option.some.injEq] at h; omega
    · exact absurd h (by simp)
  | cons it rest ih =>
    intro text n r h
    unfold match_items at h
    exact match_item_bound it (match_items accept rest) ih text n r h

theorem match_alts_bound (accept : Nat → Bool) :
    ∀ (alts : List (List Item)) (text : List Byte) (r : Nat),
      match_alts accept alts text = some r → r ≤ text.length := by
  intro alts
  induction alts with
  | nil => intro text r h; simp [match_alts] at h
  | cons alt rest ih =>
    intro text r h
    unfold match_alts at h
    cases hm : match_items accept alt text 0 with
    | none => rw [hm] at h; exact ih text r h
    | some x =>
      rw [hm] at h
      simp only [Option.some.injEq] at h
      subst h
      have := match_items_bound accept alt text 0 x hm
      omega

theorem search_bound (re : List (List Item)) :
    ∀ (t : List Byte) (p q len : Nat),
      search re t p = some (q, len) → p ≤ q ∧ q + len ≤ p + t.length := by
  intro t
  induction t with
  | nil =>
    intro p q len h
    unfold search at h
    cases hm : match_alts (fun _ => true) re [] with
    | none => rw [hm] at h; simp at h
    | some x =>
      rw [hm] at h
      simp only [Option.map_some', Option.some.injEq, Prod.mk.injEq] at h
      have := match_alts_bound _ re [] x hm
      simp only [List.length_nil] at this ⊢
      omega
  | cons c t ih =>
    intro p q len h
    unfold search at h
    cases hm : match_alts (fun _ => true) re (c :: t) with
    | none =>
      rw [hm] at h
      have := ih (p + 1) q len h
      simp only [List.length_cons]; omega
    | some x =>
      rw [hm] at h
      simp only [Option.some.injEq, Prod.mk.injEq] at h
      have := match_alts_bound _ re (c :: t) x hm
      omega

theorem find_all_from_spec (re : List (List Item)) (text : List Byte) :
    ∀ (fuel start : Nat), start ≤ text.length →
      (∀ m ∈ find_all_from re fuel text start, start ≤ m.1 ∧ m.1 + m.2 ≤ text.length) ∧
      (find_all_from re fuel text start).Pairwise (fun a b => a.1 + a.2 ≤ b.1) := by
  intro fuel
  induction fuel with
  | zero => intro start _; simp [find_all_from]
  | succ fuel ih =>
    intro start hstart
    unfold find_all_from
    cases hs : search re (text.drop start) start with
    | none => simp
    | some pl =>
      obtain ⟨p, l⟩ := pl
      have hb := search_bound re _ start p l hs
      simp only [List.length_drop] at hb
      cases l with
      | zero =>
        simp only
        by_cases hp : text.length ≤ p
        · rw [if_pos hp]
          simp only [List.mem_singleton, List.pairwise_singleton, and_true]
          intro m hm; subst hm; simp only; omega
        · rw [if_neg hp]
          cases hm : match_alts (fun n => decide (0 < n)) re (text.drop p) with
          | none =>
            simp only
            obtain ⟨h1, h2⟩ := ih (p + 1) (by omega)
            refine ⟨?_, ?_⟩
            · intro m hmem
              rcases List.mem_cons.mp hmem with rfl | hmem
              · simp only; omega
              · have := h1 m hmem; omega
            · refine List.Pairwise.cons ?_ h2
              intro m hmem
              have := h1 m hmem
              simp only; omega
          | some len =>
            simp only
            have hl := match_alts_bound _ re _ len hm
            simp only [List.length_drop] at hl
            obtain ⟨h1, h2⟩ := ih (p + len) (by omega)
            refine ⟨?_, ?_⟩
            · intro m hmem
              rcases List.mem_cons.mp hmem with rfl | hmem
              · simp only; omega
              · rcases List.mem_cons.mp hmem with rfl | hmem
                · simp only; omega
                · have := h1 m hmem; omega
            · refine List.Pairwise.cons ?_ (List.Pairwise.cons ?_ h2)
              · intro m hmem
                rcases List.mem_cons.mp hmem with rfl | hmem
                · simp
                · have := h1 m hmem
                  simp only; omega
              · intro m hmem
                have := h1 m hmem
                simp only; omega
      | succ len =>
        simp only
        obtain ⟨h1, h2⟩ := ih (p + (len + 1)) (by omega)
        refine ⟨?_, ?_⟩
        · intro m hmem
          rcases List.mem_cons.mp hmem with rfl | hmem
          · simp only; omega
          · have := h1 m hmem; omega
        · refine List.Pairwise.cons ?_ h2
          intro m hmem
          have := h1 m hmem
          simp only; omega

theorem frag_engine_lawful : frag_engine.Lawful := by
  intro re text
  have h := find_all_from_spec re text (text.length + 1) 0 (Nat.zero_le _)
  exact ⟨fun m hm => (h.1 m hm).2, h.2⟩

theorem star_loop_post (Q : Nat → Prop) (ok : Byte → Bool)
    (k : List Byte → Nat → Option Nat) (hk : ∀ text n r, k text n = some r → Q r) :
    ∀ (text : List Byte) (n r : Nat), star_loop ok k text n = some r → Q r := by
  intro text
  induction text with
  | nil => intro n r h; exact hk [] n r (by simpa [star_loop] using h)
  | cons c t ih =>
    intro n r h
    unfold star_loop at h
    by_cases hc : ok c = true
    · rw [if_pos hc] at h
      cases hs : star_loop ok k t (n + 1) with
      | none => rw [hs] at h; exact hk _ n r h
      | some x =>
        rw [hs] at h
        simp only [Option.some.injEq] at h
        subst h
        exact ih (n + 1) x hs
    · rw [if_neg hc] at h
      exact hk _ n r h

theorem match_item_post (Q : Nat → Prop) (it : Item) (k : List Byte → Nat → Option Nat)
    (hk : ∀ text n r, k text n = some r → Q r) :
    ∀ (text : List Byte) (n r : Nat), match_item it k text n = some r → Q r := by
  intro text n r h
  unfold match_item at h
  cases hq : it.quant with
  | one =>
    rw [hq] at h
    cases text with
    | nil => simp at h
    | cons c t =>
      simp only at h
      split at h
      · exact hk t (n + 1) r h
      · exact absurd h (by simp)
  | opt =>
    rw [hq] at h
    cases text with
    | nil => simp only at h; exact hk [] n r h
    | cons c t =>
      simp only at h
      split at h
      · cases hm : k t (n + 1) with
        | none => rw [hm] at h; exact hk _ n r h
        | some x =>
          rw [hm] at h
          simp only [Option.some.injEq] at h
          subst h
          exact hk t (n + 1) x hm
      · exact hk _ n r h
  | star =>
    rw [hq] at h
    exact star_loop_post Q it.accepts k hk text n r h

theorem match_items_accept (accept : Nat → Bool) :
    ∀ (items : List Item) (text : List Byte) (n r : Nat),
      match_items accept items text n = some r → accept r = true := by
  intro items
  induction items with
  | nil =>
    intro text n r h
    unfold match_items at h
    split at h
    · simp only [Option.some.injEq] at h; subst h; assumption
    · exact absurd h (by simp)
  | cons it rest ih =>
    intro text n r h
    unfold match_items at h
    exact match_item_post (fun r => accept r = true) it (match_items accept rest) ih text n r h

theorem match_alts_accept (accept : Nat → Bool) :
    ∀ (alts : List (List Item)) (text : List Byte) (r : Nat),
      match_alts accept alts text = some r → accept r = true := by
  intro alts
  induction alts with
  | nil => intro text r h; simp [match_alts] at h
  | cons alt rest ih =>
    intro text r h
    unfold match_alts at h
    cases hm : match_items accept alt text 0 with
    | none => rw [hm] at h; exact ih text r h
    | some x =>
      rw [hm] at h
      simp only [Option.some.injEq] at h
      subst h
      exact match_items_accept accept alt text 0 x hm

/-- The fuel `text.length + 1` of `frag_engine` is enough: more fuel gives the same run. -/
theorem find_all_from_fuel (re : List (List Item)) (text : List Byte) :
    ∀ (fuel start : Nat), start ≤ text.length → text.length + 1 - start ≤ fuel →
      find_all_from re (fuel + 1) text start = find_all_from re fuel text start := by
  intro fuel
  induction fuel with
  | zero => intro start h1 h2; omega
  | succ fuel ih =>
    intro start h1 h2
    conv_lhs => unfold find_all_from
    conv_rhs => unfold find_all_from
    cases hs : search re (text.drop start) start with
    | none => rfl
    | some pl =>
      obtain ⟨p, l⟩ := pl
      have hb := search_bound re _ start p l hs
      simp only [List.length_drop] at hb
      cases l with
      | zero =>
        simp only
        by_cases hp : text.length ≤ p
        · rw [if_pos hp, if_pos hp]
        · rw [if_neg hp, if_neg hp]
          cases hm : match_alts (fun n => decide (0 < n)) re (text.drop p) with
          | none =>
            simp only
            rw [ih (p + 1) (by omega) (by omega)]
          | some len =>
            simp only
            have hl := match_alts_bound _ re _ len hm
            simp only [List.length_drop] at hl
            have hpos := match_alts_accept _ re _ len hm
            simp only [decide_eq_true_eq] at hpos
            rw [ih (p + len) (by omega) (by omega)]
      | succ len =>
        simp only
        rw [ih (p + (len + 1)) (by omega) (by omega)]

/-! ### `extract_context` when `match_pos + match_len + context_size` fits in `size_t` -/

theorem extract_context_no_overflow (content : List Byte) (match_pos match_len context_size : Nat)
    (hin : match_pos + match_len ≤ content.length)
    (hfit : match_pos + match_len + context_size < 2 ^ 64) :
    extract_context content match_pos match_len context_size
      = .ok (context_spec content match_pos match_len context_size) := by
  have hadd : size_add (size_add match_pos match_len) context_size
      = match_pos + match_len + context_size := by
    unfold size_add SIZE_MOD
    rw [Nat.mod_eq_of_lt (a := match_pos + match_len) (by omega), Nat.mod_eq_of_lt hfit]
  have hstart : (if match_pos < context_size then 0 else match_pos - context_size)
      = match_pos - context_size := by
    split <;> omega
  have hle : match_pos - context_size
      ≤ min content.length (match_pos + match_len + context_size) := by
    rw [Nat.le_min]; omega
  have hsub : size_sub (min content.length (match_pos + match_len + context_size))
      (match_pos - context_size)
      = min content.length (match_pos + match_len + context_size)
          - (match_pos - context_size) :=
    size_sub_of_le _ _ hle (lt_of_le_of_lt (Nat.min_le_right _ _) hfit)
  have hpos : ¬ (match_pos - context_size > content.length) := by omega
  unfold extract_context context_spec
  simp only [hadd, hstart, hsub, substr, if_neg hpos]
  by_cases h1 : match_pos - context_size > 0 <;>
    by_cases h2 : min content.length (match_pos + match_len + context_size) < content.length <;>
    simp [h1, h2]

/-! ### `extract_context` for every context size -/

theorem context_start_le (match_pos context_size : Nat) :
    context_start match_pos context_size ≤ match_pos := by
  unfold context_start
  split <;> omega

theorem extract_context_eq (content : List Byte) (match_pos match_len context_size : Nat)
    (hin : match_pos + match_len ≤ content.length) :
    extract_context content match_pos match_len context_size
      = .ok ((if context_start match_pos context_size > 0 then ellipsis else [])
          ++ (content.drop (context_start match_pos context_size)).take
              (size_sub (context_end content.length match_pos match_len context_size)
                (context_start match_pos context_size))
          ++ (if context_end content.length match_pos match_len context_size < content.length
              then ellipsis else [])) := by
  have hs := context_start_le match_pos context_size
  have hpos : ¬ (context_start match_pos context_size > content.length) := by omega
  unfold extract_context
  simp only [← context_start.eq_1, ← context_end.eq_1, substr, if_neg hpos]
  by_cases h1 : context_start match_pos context_size > 0 <;>
    by_cases h2 : context_end content.length match_pos match_len context_size < content.length <;>
    simp [h1, h2]

theorem ellipsis_length : ellipsis.length = 3 := rfl

theorem context_start_cases (match_pos context_size : Nat) :
    (match_pos < context_size ∧ context_start match_pos context_size = 0) ∨
    (context_size ≤ match_pos ∧
      context_start match_pos context_size = match_pos - context_size) := by
  unfold context_start
  by_cases h : match_pos < context_size
  · exact Or.inl ⟨h, if_pos h⟩
  · exact Or.inr ⟨by omega, if_neg h⟩

theorem context_window_length_le (content : List Byte) (match_pos match_len context_size : Nat)
    (hin : match_pos + match_len ≤ content.length) (hlen : content.length < 2 ^ 64) :
    ((content.drop (context_start match_pos context_size)).take
        (size_sub (context_end content.length match_pos match_len context_size)
          (context_start match_pos context_size))).length
      ≤ match_len + 2 * context_size := by
  rw [List.length_take, List.length_drop]
  have hcases := context_start_cases match_pos context_size
  by_cases hfit : match_pos + match_len + context_size < 2 ^ 64
  · have hadd : size_add (size_add match_pos match_len) context_size
        = match_pos + match_len + context_size := by
      unfold size_add SIZE_MOD
      rw [Nat.mod_eq_of_lt (a := match_pos + match_len) (by omega), Nat.mod_eq_of_lt hfit]
    have hend : context_end content.length match_pos match_len context_size
        = min content.length (match_pos + match_len + context_size) := by
      unfold context_end
      rw [hadd]
    have hend1 : context_end content.length match_pos match_len context_size
        ≤ match_pos + match_len + context_size := by
      rw [hend]; exact Nat.min_le_right _ _
    have hle : context_start match_pos context_size
        ≤ context_end content.length match_pos match_len context_size := by
      rw [hend, Nat.le_min]
      rcases hcases with ⟨_, h0⟩ | ⟨_, h0⟩ <;> omega
    rw [size_sub_of_le _ _ hle (lt_of_le_of_lt hend1 hfit)]
    have hmin := Nat.min_le_left
      (context_end content.length match_pos match_len context_size
        - context_start match_pos context_size)
      (content.length - context_start match_pos context_size)
    rcases hcases with ⟨_, h0⟩ | ⟨_, h0⟩ <;> omega
  · have hmin := Nat.min_le_right
      (size_sub (context_end content.length match_pos match_len context_size)
        (context_start match_pos context_size))
      (content.length - context_start match_pos context_size)
    rcases hcases with ⟨_, h0⟩ | ⟨_, h0⟩ <;> omega

theorem extract_context_length_le (content : List Byte) (match_pos match_len context_size : Nat)
    (hin : match_pos + match_len ≤ content.length) (hlen : content.length < 2 ^ 64) :
    ∃ context, extract_context content match_pos match_len context_size = .ok context ∧
      context.length ≤ match_len + 2 * context_size + 6 := by
  refine ⟨_, extract_context_eq content match_pos match_len context_size hin, ?_⟩
  have hw := context_window_length_le content match_pos match_len context_size hin hlen
  simp only [List.length_append]
  have h1 : (if context_start match_pos context_size > 0 then ellipsis else []).length ≤ 3 := by
    split <;> simp [ellipsis_length]
  have h2 : (if context_end content.length match_pos match_len context_size < content.length
      then ellipsis else []).length ≤ 3 := by
    split <;> simp [ellipsis_length]
  omega

theorem extract_context_in_bounds (content : List Byte) (match_pos match_len context_size : Nat)
    (hin : match_pos + match_len ≤ content.length) :
    ∃ prefix_marker window suffix_marker,
      extract_context content match_pos match_len context_size
        = .ok (prefix_marker ++ window ++ suffix_marker) ∧
      (prefix_marker = [] ∨ prefix_marker = ellipsis) ∧
      (suffix_marker = [] ∨ suffix_marker = ellipsis) ∧
      context_start match_pos context_size ≤ content.length ∧
      ∀ j, j < window.length →
        context_start match_pos context_size + j < content.length ∧
        window[j]? = content[context_start match_pos context_size + j]? := by
  refine ⟨_, _, _, extract_context_eq content match_pos match_len context_size hin, ?_, ?_, ?_, ?_⟩
  · split
    · exact Or.inr rfl
    · exact Or.inl rfl
  · split
    · exact Or.inr rfl
    · exact Or.inl rfl
  · have := context_start_le match_pos context_size
    omega
  · intro j hj
    rw [List.length_take, List.length_drop] at hj
    refine ⟨by omega, ?_⟩
    rw [List.getElem?_take_of_lt (by omega), List.getElem?_drop]

theorem context_spec_contains_match (buffer : List Byte) (offset length C : Nat)
    (hin : offset + length ≤ buffer.length) :
    (buffer.drop offset).take length <:+: context_spec buffer offset length C := by
  have hwin : (buffer.drop offset).take length
      <:+: (buffer.drop (offset - C)).take (min buffer.length (offset + length + C) - (offset - C)) := by
    have hdrop : ((buffer.drop (offset - C)).take
          (min buffer.length (offset + length + C) - (offset - C))).drop (offset - (offset - C))
        = (buffer.drop offset).take (min buffer.length (offset + length + C) - offset) := by
      rw [List.drop_take, List.drop_drop]
      congr 1
      · omega
      · congr 1; omega
    have htake : (buffer.drop offset).take length
        = ((buffer.drop offset).take (min buffer.length (offset + length + C) - offset)).take length := by
      rw [List.take_take]
      congr 1
      have : length ≤ min buffer.length (offset + length + C) - offset := by
        rw [Nat.le_sub_iff_add_le (by rw [Nat.le_min]; omega), Nat.le_min]; omega
      omega
    rw [htake, ← hdrop]
    exact (List.take_prefix _ _).isInfix.trans (List.drop_suffix _ _).isInfix
  unfold context_spec
  exact hwin.trans ⟨_, _, rfl⟩

theorem extract_context_markers (content : List Byte) (match_pos match_len context_size : Nat)
    (hin : match_pos + match_len ≤ content.length)
    (hfit : match_pos + match_len + context_size < 2 ^ 64) :
    extract_context content match_pos match_len context_size
      = .ok ((if context_size < match_pos then ellipsis else [])
          ++ (content.drop (match_pos - context_size)).take
              (min content.length (match_pos + match_len + context_size)
                - (match_pos - context_size))
          ++ (if match_pos + match_len + context_size < content.length
              then ellipsis else [])) := by
  rw [extract_context_no_overflow content match_pos match_len context_size hin hfit]
  unfold context_spec
  have h1 : (match_pos - context_size > 0) ↔ context_size < match_pos := by omega
  have h2 : (min content.length (match_pos + match_len + context_size) < content.length)
      ↔ match_pos + match_len + context_size < content.length := by
    rw [min_lt_iff]; omega
  simp only [h1, h2]

/-! ### Overlapping occurrences -/

theorem strict_sorted_ext (l₁ l₂ : List Nat) (h₁ : l₁.Pairwise (fun a b => a < b))
    (h₂ : l₂.Pairwise (fun a b => a < b)) (hmem : ∀ k, k ∈ l₁ ↔ k ∈ l₂) : l₁ = l₂ := by
  have hn₁ : l₁.Nodup := h₁.imp (fun h => Nat.ne_of_lt h)
  have hn₂ : l₂.Nodup := h₂.imp (fun h => Nat.ne_of_lt h)
  have hperm : l₁.Perm l₂ := (List.perm_ext_iff_of_nodup hn₁ hn₂).mpr hmem
  exact List.eq_of_perm_of_sorted hperm (h₁.imp (fun h => Nat.le_of_lt h))
    (h₂.imp (fun h => Nat.le_of_lt h))

/-- On a buffer of `n >= 32` copies of a byte, the pattern of `k` copies of it, with
`1 <= k <= n`, is reported at every offset `0, 1, ..., n - k`. -/
theorem scan_pattern_simd_replicate (c : Byte) (n k : Nat) (hk : 1 ≤ k) (hkn : k ≤ n)
    (h32 : 32 ≤ n) (h64 : n < 2 ^ 64) :
    scan_pattern_simd (List.replicate n c) (List.replicate k c)
      = .ok (List.range (n - k + 1)) := by
  have hne : List.replicate k c ≠ [] := by
    intro h
    have := congrArg List.length h
    simp at this; omega
  obtain ⟨hits, hok, hsorted, hmem⟩ := scan_pattern_simd_long (List.replicate n c)
    (List.replicate k c) hne (by simpa using h32) (by simpa using h64)
  rw [hok]
  congr 1
  apply strict_sorted_ext hits _ hsorted
  · exact List.pairwise_lt_range _
  · intro j
    rw [hmem, List.mem_range]
    simp only [List.length_replicate, List.drop_replicate, List.take_replicate]
    constructor
    · rintro ⟨h, _⟩; omega
    · intro h
      refine ⟨by omega, ?_⟩
      congr 1
      omega

/-! ### Catalog entries without a compiled regex, repeated entries, the empty text -/

theorem pattern_hits_of_null {E : RegexEngine} (p : PatternDefinition E) (text : List Byte)
    (hnull : p.compiled_regex = none) : pattern_hits text p = [] := by
  simp only [pattern_hits, hnull]

theorem find_patterns_in_text_skip_null {E : RegexEngine} (p : PatternDefinition E)
    (hnull : p.compiled_regex = none) (catalog more : List (PatternDefinition E))
    (text : List Byte) :
    find_patterns_in_text (more.foldl add_pattern (add_pattern catalog p)) text
      = find_patterns_in_text (more.foldl add_pattern catalog) text := by
  rw [foldl_add_pattern, foldl_add_pattern, add_pattern, find_patterns_in_text_append,
    find_patterns_in_text_append, find_patterns_in_text_append, find_patterns_in_text_single,
    pattern_hits_of_null p text hnull, List.append_nil]

theorem new_non_regex_is_null (E : RegexEngine) (n d pt : String) (p : List Byte)
    (s : String) (app_to : List String) (patch_t : String) (hpt : pt ≠ "regex") :
    (PatternDefinition.new E n d pt p s app_to patch_t).compiled_regex = none := by
  simp [PatternDefinition.new, hpt]

theorem find_patterns_in_text_add_pattern {E : RegexEngine}
    (catalog : List (PatternDefinition E)) (p : PatternDefinition E) (text : List Byte) :
    find_patterns_in_text (add_pattern catalog p) text
      = find_patterns_in_text catalog text ++ pattern_hits text p := by
  rw [add_pattern, find_patterns_in_text_append, find_patterns_in_text_single]

theorem to_int_zero : to_int 0 = 0 := by decide

theorem find_patterns_in_text_nil_text {E : RegexEngine} (hE : E.Lawful)
    (catalog : List (PatternDefinition E)) :
    ∀ m ∈ find_patterns_in_text catalog [], m.position = 0 ∧ m.matched_text = [] := by
  intro m hm
  rw [find_patterns_in_text_eq, List.mem_flatMap] at hm
  obtain ⟨p, _, hp⟩ := hm
  unfold pattern_hits at hp
  cases hre : p.compiled_regex with
  | none => rw [hre] at hp; simp at hp
  | some re =>
    rw [hre] at hp
    simp only [List.mem_map] at hp
    obtain ⟨x, hx, rfl⟩ := hp
    have hb := (hE re []).1 x hx
    simp only [List.length_nil, Nat.le_zero, Nat.add_eq_zero] at hb
    simp only [make_match, hb.1, hb.2, to_int_zero, List.drop_nil, List.take_nil, and_self]

theorem find_patterns_in_text_of_no_hits {E : RegexEngine}
    (catalog : List (PatternDefinition E)) (text : List Byte)
    (hnone : ∀ p ∈ catalog, pattern_hits text p = []) :
    find_patterns_in_text catalog text = [] := by
  rw [find_patterns_in_text_eq, List.flatMap_eq_nil_iff]
  exact hnone

/-! ### The empty pattern in the literal scanner -/

theorem collect_matches_skip_empty (data : List Byte) :
    ∀ (pre post : List (List Byte)) (acc : List (Nat × List Byte)),
      collect_matches data (pre ++ [] :: post) acc = collect_matches data (pre ++ post) acc := by
  intro pre
  induction pre with
  | nil =>
    intro post acc
    simp [collect_matches, scan_pattern_simd]
  | cons p rest ih =>
    intro post acc
    simp only [List.cons_append, collect_matches]
    cases scan_pattern_simd data p with
    | error e => rfl
    | ok hits => exact ih post _

theorem scan_multiple_skip_empty (data : List Byte) (pre post : List (List Byte)) :
    scan_multiple_patterns_simd data (pre ++ [] :: post)
      = scan_multiple_patterns_simd data (pre ++ post) := by
  unfold scan_multiple_patterns_simd
  rw [collect_matches_skip_empty]

/-! ### The extraction loop on an arbitrary 32-bit mask -/

theorem extract_positions_zero (fuel i : Nat) (acc : List Nat) :
    extract_positions fuel 0 i acc = acc := by
  cases fuel <;> simp [extract_positions]

theorem mask_bits_length_le : ∀ (width mask base : Nat),
    (mask_bits width mask base).length ≤ width := by
  intro width
  induction width with
  | zero => intro mask base; simp [mask_bits]
  | succ w ih =>
    intro mask base
    unfold mask_bits
    have := ih (mask / 2) (base + 1)
    split
    · simp only [List.length_cons]; omega
    · omega

theorem extract_positions_mask_bits : ∀ (width fuel mask i : Nat) (acc : List Nat),
    width ≤ 32 → mask < 2 ^ width → (mask_bits width mask i).length ≤ fuel →
    extract_positions fuel mask i acc = acc ++ mask_bits width mask i := by
  intro width
  induction width with
  | zero =>
    intro fuel mask i acc _ hm _
    have h0 : mask = 0 := by simpa using hm
    subst h0
    simp [extract_positions_zero, mask_bits]
  | succ w ih =>
    intro fuel mask i acc hw hm hf
    have hhalf : mask / 2 < 2 ^ w := by
      rw [pow_succ] at hm; omega
    have h31 : mask / 2 < 2 ^ 31 :=
      lt_of_lt_of_le hhalf (Nat.pow_le_pow_right (by omega) (by omega))
    unfold mask_bits at hf ⊢
    by_cases hodd : mask % 2 = 1
    · rw [if_pos hodd] at hf ⊢
      simp only [List.length_cons] at hf
      obtain ⟨f, rfl⟩ : ∃ f, fuel = f + 1 := ⟨fuel - 1, by omega⟩
      have hmask : mask = 1 + 2 * (mask / 2) := by omega
      unfold extract_positions
      have hne : mask ≠ 0 := by omega
      rw [if_neg hne]
      conv_lhs => rw [hmask, land_pred_odd, ctz_odd, extract_positions_double _ _ _ _ h31]
      rw [ih f (mask / 2) (i + 1) _ (by omega) hhalf (by omega)]
      simp
    · rw [if_neg hodd] at hf ⊢
      have hmask : mask = 2 * (mask / 2) := by omega
      conv_lhs => rw [hmask, extract_positions_double _ _ _ _ h31]
      exact ih fuel (mask / 2) (i + 1) acc (by omega) hhalf hf

theorem mask_bits_eq_filter : ∀ (width mask base : Nat),
    mask_bits width mask base
      = ((List.range width).filter (fun b => mask.testBit b)).map (fun b => base + b) := by
  intro width
  induction width with
  | zero => intro mask base; simp [mask_bits]
  | succ w ih =>
    intro mask base
    unfold mask_bits
    rw [List.range_succ_eq_map, List.filter_cons, List.filter_map, ih]
    have hbit : mask.testBit 0 = decide (mask % 2 = 1) := Nat.testBit_zero mask
    have hfun : ((fun b => mask.testBit b) ∘ Nat.succ) = (fun b => (mask / 2).testBit b) := by
      funext b
      simp [Function.comp, Nat.testBit_succ]
    have hmap : ∀ (l : List Nat),
        (l.map Nat.succ).map (fun b => base + b) = l.map (fun b => base + 1 + b) := by
      intro l
      rw [List.map_map]
      apply List.map_congr_left
      intro b _
      simp only [Function.comp, Nat.succ_eq_add_one]; omega
    rw [hfun, hbit]
    by_cases hodd : mask % 2 = 1
    · simp [hodd, hmap]
    · simp [hodd, hmap]

theorem set_bits_eq_mask_bits (mask : Nat) : set_bits mask = mask_bits 32 mask 0 := by
  rw [mask_bits_eq_filter]
  simp [set_bits]

theorem mask_bits_shift (width mask base : Nat) :
    mask_bits width mask base = (mask_bits width mask 0).map (fun b => base + b) := by
  rw [mask_bits_eq_filter, mask_bits_eq_filter, List.map_map]
  apply List.map_congr_left
  intro b _
  simp

theorem extract_positions_length : ∀ (fuel mask i : Nat) (acc : List Nat),
    (extract_positions fuel mask i acc).length = acc.length + extract_iterations fuel mask := by
  intro fuel
  induction fuel with
  | zero => intro mask i acc; simp [extract_positions, extract_iterations]
  | succ f ih =>
    intro mask i acc
    unfold extract_positions extract_iterations
    by_cases h0 : mask = 0
    · simp [h0]
    · rw [if_neg h0, if_neg h0, ih]
      simp only [List.length_append, List.length_singleton]
      omega

theorem extract_positions_set_bits (mask i : Nat) (acc : List Nat) (fuel : Nat)
    (hm : mask < 2 ^ 32) (hf : popcount mask ≤ fuel) :
    extract_positions fuel mask i acc = acc ++ (set_bits mask).map (fun b => i + b) := by
  have h := extract_positions_mask_bits 32 fuel mask i acc (by omega) hm
    (by rw [mask_bits_shift, List.length_map, ← set_bits_eq_mask_bits]; exact hf)
  rw [h, mask_bits_shift, set_bits_eq_mask_bits]

theorem popcount_le (mask : Nat) : popcount mask ≤ 32 := by
  unfold popcount
  rw [set_bits_eq_mask_bits]
  exact mask_bits_length_le 32 mask 0

theorem extract_iterations_eq_popcount (mask fuel : Nat) (hm : mask < 2 ^ 32)
    (hf : popcount mask ≤ fuel) : extract_iterations fuel mask = popcount mask := by
  have h1 := extract_positions_length fuel mask 0 []
  rw [extract_positions_set_bits mask 0 [] fuel hm hf] at h1
  simp only [List.nil_append, List.length_map, List.length_nil, Nat.zero_add] at h1
  exact h1.symm

theorem set_bits_sorted (mask : Nat) : (set_bits mask).Pairwise (fun a b => a < b) :=
  List.Pairwise.sublist (List.filter_sublist _) (List.pairwise_lt_range 32)

/-! ### The chunk loop on a buffer shorter than 32 bytes -/

theorem chunk_index_eq (n : Nat) : chunk_index n = (32 * n) % 2 ^ 64 := by
  induction n with
  | zero => rfl
  | succ n ih =>
    rw [chunk_index, ih]
    unfold size_add SIZE_MOD
    omega

theorem chunk_guard_short (data_len n : Nat) (h : data_len < 32) :
    chunk_guard (chunk_index n) data_len = true := by
  have hsub : size_sub data_len 32 = 2 ^ 64 - (32 - data_len) :=
    size_sub_of_lt _ _ h (by norm_num)
  rw [chunk_index_eq]
  simp only [chunk_guard, hsub, decide_eq_true_eq]
  omega

theorem chunk_loop_short_never_ok (data : List Byte) (target : Byte) (h : data.length < 32)
    (fuel : Nat) : ∃ e, chunk_loop fuel data target 0 [] = .error e := by
  cases fuel with
  | zero => exact ⟨.out_of_fuel, rfl⟩
  | succ f =>
    have hguard : chunk_guard 0 data.length = true := chunk_guard_short data.length 0 h
    have hload : loadu_si256 data 0 = .error (.out_of_bounds 0 32 data.length) := by
      unfold loadu_si256
      rw [if_neg (by omega)]
    refine ⟨.out_of_bounds 0 32 data.length, ?_⟩
    simp only [chunk_loop, hguard, hload, if_true]

/-! ### The multi-pattern scan as a multiset of hits -/

theorem occurrences_sorted (data w : List Byte) :
    (occurrences data w).Pairwise (fun a b => a < b) :=
  List.Pairwise.sublist (List.filter_sublist _) (List.pairwise_lt_range _)

theorem mem_occurrences (data w : List Byte) (p : Nat) :
    p ∈ occurrences data w ↔
      p + w.length ≤ data.length ∧ (data.drop p).take w.length = w := by
  unfold occurrences
  simp only [List.mem_filter, List.mem_range, Bool.and_eq_true, decide_eq_true_eq, beq_iff_eq]
  constructor
  · rintro ⟨_, h⟩; exact h
  · intro h; exact ⟨by omega, h⟩

theorem scan_pattern_simd_long_eq (data w : List Byte)
    (h32 : 32 ≤ data.length) (h64 : data.length < 2 ^ 64) :
    scan_pattern_simd data w = .ok (literal_hits data w) := by
  cases w with
  | nil => rfl
  | cons c rest =>
    obtain ⟨hits, hok, hsorted, hmem⟩ :=
      scan_pattern_simd_long data (c :: rest) (by simp) h32 h64
    rw [hok]
    congr 1
    apply strict_sorted_ext hits _ hsorted (occurrences_sorted data (c :: rest))
    intro k
    rw [hmem]
    exact (mem_occurrences data (c :: rest) k).symm

theorem collect_matches_long (data : List Byte)
    (h32 : 32 ≤ data.length) (h64 : data.length < 2 ^ 64) :
    ∀ (patterns : List (List Byte)) (acc : List (Nat × List Byte)),
      collect_matches data patterns acc
        = .ok (acc ++ patterns.flatMap
            (fun w => (literal_hits data w).map (fun p => (p, w)))) := by
  intro patterns
  induction patterns with
  | nil => intro acc; simp [collect_matches]
  | cons w rest ih =>
    intro acc
    simp only [collect_matches, scan_pattern_simd_long_eq data w h32 h64, ih,
      List.flatMap_cons, List.append_assoc]

theorem scan_multiple_long_eq (data : List Byte) (patterns : List (List Byte))
    (h32 : 32 ≤ data.length) (h64 : data.length < 2 ^ 64) :
    scan_multiple_patterns_simd data patterns
      = .ok (std_sort (patterns.flatMap
          (fun w => (literal_hits data w).map (fun p => (p, w))))) := by
  unfold scan_multiple_patterns_simd
  rw [collect_matches_long data h32 h64]
  simp

theorem count_hits_of_ne (hits : List Nat) (p : Nat) (w w' : List Byte) (hne : w' ≠ w) :
    (hits.map (fun q => (q, w'))).countP (fun x => decide (x = (p, w))) = 0 := by
  rw [List.countP_eq_zero]
  intro x hmem
  simp only [List.mem_map] at hmem
  obtain ⟨q, _, rfl⟩ := hmem
  simp [hne]

theorem count_hits_same : ∀ (hits : List Nat), hits.Pairwise (fun a b => a < b) →
    ∀ (p : Nat) (w : List Byte),
      (hits.map (fun q => (q, w))).countP (fun x => decide (x = (p, w)))
        = if p ∈ hits then 1 else 0 := by
  intro hits
  induction hits with
  | nil => intro _ p w; simp
  | cons h t ih =>
    intro hs p w
    rw [List.pairwise_cons] at hs
    rw [List.map_cons, List.countP_cons, ih hs.2 p w]
    by_cases hp : h = p
    · subst hp
      have hnot : h ∉ t := fun hmem => Nat.lt_irrefl h (hs.1 h hmem)
      simp [hnot]
    · have hiff : p ∈ h :: t ↔ p ∈ t := by
        simp only [List.mem_cons]
        constructor
        · rintro (h1 | h1)
          · exact absurd h1.symm hp
          · exact h1
        · exact Or.inr
      simp only [Prod.mk.injEq, hp, false_and, decide_False, Bool.false_eq_true, if_false,
        Nat.add_zero, hiff]

theorem literal_hits_sorted (data w : List Byte) :
    (literal_hits data w).Pairwise (fun a b => a < b) := by
  cases w with
  | nil => exact List.Pairwise.nil
  | cons c rest => exact occurrences_sorted data (c :: rest)

theorem mem_literal_hits (data w : List Byte) (p : Nat) :
    p ∈ literal_hits data w ↔
      w ≠ [] ∧ p + w.length ≤ data.length ∧ (data.drop p).take w.length = w := by
  cases w with
  | nil => simp [literal_hits]
  | cons c rest =>
    rw [literal_hits, mem_occurrences]
    simp

theorem count_flatMap_hits (data : List Byte) (p : Nat) (w : List Byte) :
    ∀ (patterns : List (List Byte)),
      (patterns.flatMap (fun w' => (literal_hits data w').map (fun q => (q, w')))).countP
          (fun x => decide (x = (p, w)))
        = if p ∈ literal_hits data w then patterns.countP (fun w' => decide (w' = w)) else 0 := by
  intro patterns
  induction patterns with
  | nil => simp
  | cons w' rest ih =>
    rw [List.flatMap_cons, List.countP_append, ih, List.countP_cons]
    by_cases hw : w' = w
    · subst hw
      rw [count_hits_same _ (literal_hits_sorted data w')]
      simp only [decide_True, if_true]
      split <;> omega
    · rw [count_hits_of_ne _ p w w' hw]
      simp only [hw, decide_False, Bool.false_eq_true, if_false, Nat.add_zero, Nat.zero_add]

theorem scan_multiple_long_count (data : List Byte) (patterns : List (List Byte))
    (h32 : 32 ≤ data.length) (h64 : data.length < 2 ^ 64) :
    ∃ result, scan_multiple_patterns_simd data patterns = .ok result ∧
      ∀ (p : Nat) (w : List Byte),
        result.countP (fun x => decide (x = (p, w)))
          = if w ≠ [] ∧ p + w.length ≤ data.length ∧ (data.drop p).take w.length = w
            then patterns.countP (fun w' => decide (w' = w)) else 0 := by
  refine ⟨_, scan_multiple_long_eq data patterns h32 h64, ?_⟩
  intro p w
  rw [(std_sort_perm _).countP_eq, count_flatMap_hits]
  simp only [mem_literal_hits]

/-! ### The records returned by `find_patterns_in_text` -/

theorem mem_find_patterns_in_text {E : RegexEngine} (catalog : List (PatternDefinition E))
    (text : List Byte) (r : PatternMatch) (hr : r ∈ find_patterns_in_text catalog text) :
    ∃ p ∈ catalog, ∃ re, p.compiled_regex = some re ∧
      ∃ m ∈ E.find_all re text, r = make_match p text m := by
  rw [find_patterns_in_text_eq, List.mem_flatMap] at hr
  obtain ⟨p, hp, hmem⟩ := hr
  unfold pattern_hits at hmem
  cases hre : p.compiled_regex with
  | none => rw [hre] at hmem; simp at hmem
  | some re =>
    rw [hre] at hmem
    simp only [List.mem_map] at hmem
    obtain ⟨m, hm, rfl⟩ := hmem
    exact ⟨p, hp, re, hre, m, hm, rfl⟩

theorem pattern_hits_of_compiled {E : RegexEngine} (p : PatternDefinition E) (re : E.Regex)
    (text : List Byte) (hre : p.compiled_regex = some re) :
    pattern_hits text p = (E.find_all re text).map (make_match p text) := by
  simp only [pattern_hits, hre]

/-! ### The severity counters of `analyze_text` -/

theorem int_incr_of_lt (c : Int) (h0 : 0 ≤ c) (h : c + 1 < 2 ^ 31) : int_incr c = c + 1 := by
  unfold int_incr
  omega

theorem count_severity_foldl : ∀ (l : List PatternMatch) (r : PatternAnalysisResult),
    0 ≤ r.critical_count → 0 ≤ r.high_count → 0 ≤ r.medium_count → 0 ≤ r.low_count →
    r.critical_count + l.length < 2 ^ 31 → r.high_count + l.length < 2 ^ 31 →
    r.medium_count + l.length < 2 ^ 31 → r.low_count + l.length < 2 ^ 31 →
    (l.foldl count_severity r).found_patterns = r.found_patterns ∧
    (l.foldl count_severity r).critical_count
      = r.critical_count + l.countP (fun m => decide (m.severity = "CRITICAL")) ∧
    (l.foldl count_severity r).high_count
      = r.high_count + l.countP (fun m => decide (m.severity = "HIGH")) ∧
    (l.foldl count_severity r).medium_count
      = r.medium_count + l.countP (fun m => decide (m.severity = "MEDIUM")) ∧
    (l.foldl count_severity r).low_count
      = r.low_count + l.countP (fun m => decide (m.severity = "LOW")) := by
  intro l
  induction l with
  | nil => intro r _ _ _ _ _ _ _ _; simp
  | cons m rest ih =>
    intro r h1 h2 h3 h4 b1 b2 b3 b4
    simp only [List.length_cons, Nat.cast_add, Nat.cast_one] at b1 b2 b3 b4
    rw [List.foldl_cons]
    have hlen : (0 : Int) ≤ (rest.length : Int) := Int.ofNat_nonneg _
    by_cases hn0 : m.severity = "CRITICAL"
    · have hsev := hn0
      clear hn0
      have hstep : count_severity r m = { r with critical_count := r.critical_count + 1 } := by
        unfold count_severity
        rw [if_pos hsev, int_incr_of_lt _ h1 (by omega)]
      have d0 : decide (m.severity = "CRITICAL") = true := by rw [hsev]; decide
      have d1 : decide (m.severity = "HIGH") = false := by rw [hsev]; decide
      have d2 : decide (m.severity = "MEDIUM") = false := by rw [hsev]; decide
      have d3 : decide (m.severity = "LOW") = false := by rw [hsev]; decide
      rw [hstep]
      obtain ⟨e0, e1, e2, e3, e4⟩ := ih { r with critical_count := r.critical_count + 1 }
        (by simp only; omega) h2 h3 h4 (by simp only; omega) (by simp only; omega)
        (by simp only; omega) (by simp only; omega)
      simp only at e0 e1 e2 e3 e4
      simp only [List.countP_cons, d0, d1, d2, d3, if_true, Bool.false_eq_true, if_false,
        Nat.cast_add, Nat.cast_one, Nat.add_zero]
      exact ⟨e0, by omega, e2, e3, e4⟩
    by_cases hn1 : m.severity = "HIGH"
    · have hsev := hn1
      clear hn1
      have hstep : count_severity r m = { r with high_count := r.high_count + 1 } := by
        unfold count_severity
        rw [if_neg hn0, if_pos hsev, int_incr_of_lt _ h2 (by omega)]
      have d0 : decide (m.severity = "CRITICAL") = false := by rw [hsev]; decide
      have d1 : decide (m.severity = "HIGH") = true := by rw [hsev]; decide
      have d2 : decide (m.severity = "MEDIUM") = false := by rw [hsev]; decide
      have d3 : decide (m.severity = "LOW") = false := by rw [hsev]; decide
      rw [hstep]
      obtain ⟨e0, e1, e2, e3, e4⟩ := ih { r with high_count := r.high_count + 1 }
        h1 (by simp only; omega) h3 h4 (by simp only; omega) (by simp only; omega)
        (by simp only; omega) (by simp only; omega)
      simp only at e0 e1 e2 e3 e4
      simp only [List.countP_cons, d0, d1, d2, d3, if_true, Bool.false_eq_true, if_false,
        Nat.cast_add, Nat.cast_one, Nat.add_zero]
      exact ⟨e0, e1, by omega, e3, e4⟩
    by_cases hn2 : m.severity = "MEDIUM"
    · have hsev := hn2
      clear hn2
      have hstep : count_severity r m = { r with medium_count := r.medium_count + 1 } := by
        unfold count_severity
        rw [if_neg hn0, if_neg hn1, if_pos hsev, int_incr_of_lt _ h3 (by omega)]
      have d0 : decide (m.severity = "CRITICAL") = false := by rw [hsev]; decide
      have d1 : decide (m.severity = "HIGH") = false := by rw [hsev]; decide
      have d2 : decide (m.severity = "MEDIUM") = true := by rw [hsev]; decide
      have d3 : decide (m.severity = "LOW") = false := by rw [hsev]; decide
      rw [hstep]
      obtain ⟨e0, e1, e2, e3, e4⟩ := ih { r with medium_count := r.medium_count + 1 }
        h1 h2 (by simp only; omega) h4 (by simp only; omega) (by simp only; omega)
        (by simp only; omega) (by simp only; omega)
      simp only at e0 e1 e2 e3 e4
      simp only [List.countP_cons, d0, d1, d2, d3, if_true, Bool.false_eq_true, if_false,
        Nat.cast_add, Nat.cast_one, Nat.add_zero]
      exact ⟨e0, e1, e2, by omega, e4⟩
    by_cases hn3 : m.severity = "LOW"
    · have hsev := hn3
      clear hn3
      have hstep : count_severity r m = { r with low_count := r.low_count + 1 } := by
        unfold count_severity
        rw [if_neg hn0, if_neg hn1, if_neg hn2, if_pos hsev, int_incr_of_lt _ h4 (by omega)]
      have d0 : decide (m.severity = "CRITICAL") = false := by rw [hsev]; decide
      have d1 : decide (m.severity = "HIGH") = false := by rw [hsev]; decide
      have d2 : decide (m.severity = "MEDIUM") = false := by rw [hsev]; decide
      have d3 : decide (m.severity = "LOW") = true := by rw [hsev]; decide
      rw [hstep]
      obtain ⟨e0, e1, e2, e3, e4⟩ := ih { r with low_count := r.low_count + 1 }
        h1 h2 h3 (by simp only; omega) (by simp only; omega) (by simp only; omega)
        (by simp only; omega) (by simp only; omega)
      simp only at e0 e1 e2 e3 e4
      simp only [List.countP_cons, d0, d1, d2, d3, if_true, Bool.false_eq_true, if_false,
        Nat.cast_add, Nat.cast_one, Nat.add_zero]
      exact ⟨e0, e1, e2, e3, by omega⟩
    have hstep : count_severity r m = r := by
      unfold count_severity
      rw [if_neg hn0, if_neg hn1, if_neg hn2, if_neg hn3]
    have d0 : decide (m.severity = "CRITICAL") = false := by simp [hn0]
    have d1 : decide (m.severity = "HIGH") = false := by simp [hn1]
    have d2 : decide (m.severity = "MEDIUM") = false := by simp [hn2]
    have d3 : decide (m.severity = "LOW") = false := by simp [hn3]
    rw [hstep]
    obtain ⟨e0, e1, e2, e3, e4⟩ := ih r h1 h2 h3 h4 (by omega) (by omega) (by omega) (by omega)
    simp only [List.countP_cons, d0, d1, d2, d3, Bool.false_eq_true, if_false, Nat.add_zero]
    exact ⟨e0, e1, e2, e3, e4⟩

theorem severity_counts_sum : ∀ (l : List PatternMatch),
    (∀ m ∈ l, m.severity = "CRITICAL" ∨ m.severity = "HIGH" ∨ m.severity = "MEDIUM"
      ∨ m.severity = "LOW") →
    l.countP (fun m => decide (m.severity = "CRITICAL"))
      + l.countP (fun m => decide (m.severity = "HIGH"))
      + l.countP (fun m => decide (m.severity = "MEDIUM"))
      + l.countP (fun m => decide (m.severity = "LOW")) = l.length := by
  intro l
  induction l with
  | nil => intro _; rfl
  | cons m rest ih =>
    intro h
    have hrest := ih (fun x hx => h x (List.mem_cons_of_mem _ hx))
    have hm := h m (List.mem_cons_self _ _)
    simp only [List.countP_cons, List.length_cons]
    rcases hm with hm | hm | hm | hm <;> simp [hm] <;> omega

theorem severity_of_found {E : RegexEngine} (catalog : List (PatternDefinition E))
    (text : List Byte) (r : PatternMatch) (hr : r ∈ find_patterns_in_text catalog text) :
    ∃ p ∈ catalog, r.severity = p.severity := by
  obtain ⟨p, hp, _, _, m, _, rfl⟩ := mem_find_patterns_in_text catalog text r hr
  exact ⟨p, hp, rfl⟩

/-! ### Uniqueness of the sorted arrangement and the order of the pattern list -/

theorem pair_le_antisymm (x y : Nat × List Byte) (h1 : pair_le x y) (h2 : pair_le y x) :
    x = y := by
  rw [pair_le_iff] at h1 h2
  rcases h1 with h1 | ⟨h1, s1⟩
  · rcases h2 with h2 | ⟨h2, _⟩ <;> omega
  · rcases h2 with h2 | ⟨_, s2⟩
    · omega
    · exact Prod.ext h1 (string_lt_connex _ _ s2 s1)

theorem std_sort_unique (l r : List (Nat × List Byte)) (hperm : r.Perm l)
    (hsorted : r.Sorted pair_le) : r = std_sort l :=
  @List.eq_of_perm_of_sorted _ pair_le ⟨pair_le_antisymm⟩ _ _
    (hperm.trans (std_sort_perm l).symm) hsorted (std_sort_sorted l)

theorem std_sort_congr (l l' : List (Nat × List Byte)) (h : l.Perm l') :
    std_sort l = std_sort l' :=
  std_sort_unique l' (std_sort l) ((std_sort_perm l).trans h) (std_sort_sorted l)

theorem scan_pattern_simd_short_fits (data w : List Byte) (h : data.length < 32)
    (hne : w ≠ []) (hfit : w.length ≤ data.length) :
    scan_pattern_simd data w = .error (.out_of_bounds 0 32 data.length) := by
  cases w with
  | nil => exact absurd rfl hne
  | cons c rest =>
    simp only [scan_pattern_simd]
    rw [if_neg (by omega), scan_byte_simd_short data c h]
    split <;> rfl

theorem scan_pattern_simd_no_fit (data w : List Byte)
    (hw : w = [] ∨ data.length < w.length) : scan_pattern_simd data w = .ok [] := by
  cases w with
  | nil => rfl
  | cons c rest =>
    simp only [scan_pattern_simd]
    rw [if_pos (by simpa using hw)]

theorem collect_matches_short_fault (data : List Byte) (h : data.length < 32) :
    ∀ (patterns : List (List Byte)) (acc : List (Nat × List Byte)),
      (∃ w ∈ patterns, w ≠ [] ∧ w.length ≤ data.length) →
      collect_matches data patterns acc = .error (.out_of_bounds 0 32 data.length) := by
  intro patterns
  induction patterns with
  | nil => intro acc hex; simp at hex
  | cons w rest ih =>
    intro acc hex
    by_cases hw : w ≠ [] ∧ w.length ≤ data.length
    · simp only [collect_matches, scan_pattern_simd_short_fits data w h hw.1 hw.2]
    · have hw2 : w = [] ∨ data.length < w.length := by
        by_cases hn : w = []
        · exact Or.inl hn
        · exact Or.inr (not_le.mp (fun hl => hw ⟨hn, hl⟩))
      simp only [collect_matches, scan_pattern_simd_no_fit data w hw2]
      apply ih
      obtain ⟨u, hu, hu2⟩ := hex
      rcases List.mem_cons.mp hu with rfl | hu
      · exact absurd hu2 hw
      · exact ⟨u, hu, hu2⟩

theorem collect_matches_no_fit (data : List Byte) :
    ∀ (patterns : List (List Byte)) (acc : List (Nat × List Byte)),
      (∀ w ∈ patterns, w = [] ∨ data.length < w.length) →
      collect_matches data patterns acc = .ok acc := by
  intro patterns
  induction patterns with
  | nil => intro acc _; rfl
  | cons w rest ih =>
    intro acc hall
    simp only [collect_matches,
      scan_pattern_simd_no_fit data w (hall w (List.mem_cons_self _ _))]
    simpa using ih acc (fun u hu => hall u (List.mem_cons_of_mem _ hu))

theorem scan_multiple_perm (data : List Byte) (patterns patterns' : List (List Byte))
    (h64 : data.length < 2 ^ 64) (hperm : patterns.Perm patterns') :
    scan_multiple_patterns_simd data patterns = scan_multiple_patterns_simd data patterns' := by
  by_cases h32 : 32 ≤ data.length
  · rw [scan_multiple_long_eq data patterns h32 h64,
      scan_multiple_long_eq data patterns' h32 h64]
    congr 1
    exact std_sort_congr _ _ (hperm.flatMap_right _)
  · have hshort : data.length < 32 := by omega
    unfold scan_multiple_patterns_simd
    by_cases hex : ∃ w ∈ patterns, w ≠ [] ∧ w.length ≤ data.length
    · have hex' : ∃ w ∈ patterns', w ≠ [] ∧ w.length ≤ data.length := by
        obtain ⟨w, hw, hw2⟩ := hex
        exact ⟨w, hperm.mem_iff.mp hw, hw2⟩
      rw [collect_matches_short_fault data hshort patterns [] hex,
        collect_matches_short_fault data hshort patterns' [] hex']
    · have hall : ∀ w ∈ patterns, w = [] ∨ data.length < w.length := by
        intro w hw
        by_cases hn : w = []
        · exact Or.inl hn
        · exact Or.inr (not_le.mp (fun hl => hex ⟨w, hw, hn, hl⟩))
      have hall' : ∀ w ∈ patterns', w = [] ∨ data.length < w.length :=
        fun w hw => hall w (hperm.mem_iff.mpr hw)
      rw [collect_matches_no_fit data patterns [] hall,
        collect_matches_no_fit data patterns' [] hall']

theorem scan_multiple_ok_sorted (data : List Byte) (patterns : List (List Byte))
    (result : List (Nat × List Byte))
    (hok : scan_multiple_patterns_simd data patterns = .ok result) :
    result.Pairwise (fun x y => x.1 < y.1 ∨ (x.1 = y.1 ∧ string_lt y.2 x.2 = false)) := by
  unfold scan_multiple_patterns_simd at hok
  cases hc : collect_matches data patterns [] with
  | error e => rw [hc] at hok; cases hok
  | ok all_matches =>
    rw [hc] at hok
    cases hok
    exact (std_sort_sorted all_matches).imp (fun {x y} hxy => (pair_le_iff x y).mp hxy)

/-! ### The scores of `APKProcessor` -/

theorem to_int_eq_int_wrap (n : Nat) (i : Int) (h : (n : Int) % 2 ^ 32 = i % 2 ^ 32) :
    to_int n = int_wrap i := by
  unfold to_int int_wrap
  omega

theorem int_wrap_emod (i : Int) : int_wrap i % 2 ^ 32 = i % 2 ^ 32 := by
  unfold int_wrap
  omega

theorem int_wrap_of_range (i : Int) (hlo : -2 ^ 31 ≤ i) (hhi : i < 2 ^ 31) :
    int_wrap i = i := by
  unfold int_wrap
  omega

theorem size_mul_emod (a b : Nat) :
    ((size_mul a b : Nat) : Int) % 2 ^ 32 = ((a : Int) * b) % 2 ^ 32 := by
  unfold size_mul SIZE_MOD
  push_cast
  exact Int.emod_emod_of_dvd _ (by norm_num)

theorem size_mul_lt (a b : Nat) : size_mul a b < 2 ^ 64 := by
  unfold size_mul SIZE_MOD
  exact Nat.mod_lt _ (by norm_num)

theorem size_add_emod (a b : Nat) :
    ((size_add a b : Nat) : Int) % 2 ^ 32 = ((a : Int) + b) % 2 ^ 32 := by
  unfold size_add SIZE_MOD
  push_cast
  exact Int.emod_emod_of_dvd _ (by norm_num)

theorem size_sub_emod (a b : Nat) (hb : b < 2 ^ 64) :
    ((size_sub a b : Nat) : Int) % 2 ^ 32 = ((a : Int) - b) % 2 ^ 32 := by
  unfold size_sub SIZE_MOD
  have h : ((2 ^ 64 + a - b : Nat) : Int) = (a : Int) - b + 2 ^ 32 * 2 ^ 32 := by
    rw [Nat.cast_sub (by omega)]
    push_cast
    ring
  rw [Int.natCast_mod, h]
  push_cast
  rw [Int.emod_emod_of_dvd _ (by norm_num)]
  omega

theorem int_to_size_emod (i : Int) : ((int_to_size i : Nat) : Int) % 2 ^ 32 = i % 2 ^ 32 := by
  unfold int_to_size
  rw [Int.toNat_of_nonneg (Int.emod_nonneg _ (by norm_num))]
  exact Int.emod_emod_of_dvd _ (by norm_num)

theorem score_arith (v p : Nat) :
    to_int (size_add (int_to_size (to_int (size_sub (int_to_size 100) (size_mul v 5))))
      (size_mul p 3)) = int_wrap (100 - 5 * (v : Int) + 3 * (p : Int)) := by
  apply to_int_eq_int_wrap
  rw [size_add_emod, Int.add_emod, int_to_size_emod, size_mul_emod]
  have h1 : to_int (size_sub (int_to_size 100) (size_mul v 5)) % 2 ^ 32
      = (100 - 5 * (v : Int)) % 2 ^ 32 := by
    rw [to_int_eq_int_wrap _ _ rfl, int_wrap_emod, size_sub_emod _ _ (size_mul_lt _ _),
      Int.sub_emod, int_to_size_emod, size_mul_emod]
    omega
  rw [h1]
  omega

theorem calculate_security_score_eq (result : AnalysisResult) :
    calculate_security_score result
      = max 0 (min 100 (int_wrap
          (100 - 5 * (result.vulnerabilities.length : Int) + 3 * (result.protections.length : Int)))) := by
  unfold calculate_security_score
  simp only [score_arith]
  split_ifs <;> omega

theorem calculate_security_score_range (result : AnalysisResult) :
    0 ≤ calculate_security_score result ∧ calculate_security_score result ≤ 100 := by
  rw [calculate_security_score_eq]
  omega

theorem calculate_security_score_of_range (result : AnalysisResult)
    (hlo : -2 ^ 31
      ≤ 100 - 5 * (result.vulnerabilities.length : Int) + 3 * (result.protections.length : Int))
    (hhi : 100 - 5 * (result.vulnerabilities.length : Int) + 3 * (result.protections.length : Int)
      < 2 ^ 31) :
    calculate_security_score result
      = security_score_spec result.vulnerabilities.length result.protections.length := by
  rw [calculate_security_score_eq, int_wrap_of_range _ hlo hhi]
  rfl

theorem calculate_security_score_replicate (v : Nat) (s : String) :
    calculate_security_score ⟨List.replicate v s, [], [], 0, [], 0, true⟩
      = max 0 (min 100 (int_wrap (100 - 5 * (v : Int)))) := by
  rw [calculate_security_score_eq]
  simp only [List.length_replicate, List.length_nil]
  norm_num

theorem critical_count_foldl : ∀ (l : List String) (c : Int), 0 ≤ c →
    c + (l.length : Int) < 2 ^ 31 →
    l.foldl (fun critical_count _vuln => int_incr critical_count) c = c + (l.length : Int) := by
  intro l
  induction l with
  | nil => intro c _ _; simp
  | cons x xs ih =>
    intro c h0 h
    simp only [List.length_cons, Nat.cast_add, Nat.cast_one] at h
    simp only [List.foldl_cons, List.length_cons, Nat.cast_add, Nat.cast_one]
    rw [int_incr_of_lt c h0 (by omega), ih (c + 1) (by omega) (by omega)]
    ring

theorem calculate_stability_score_le (analysis : AnalysisResult) :
    calculate_stability_score analysis ≤ 100 := by
  unfold calculate_stability_score
  simp only
  split_ifs <;> omega

theorem calculate_stability_score_of_nonneg (analysis : AnalysisResult)
    (h0 : 0 ≤ analysis.security_score)
    (hv : analysis.security_score + 2 * (analysis.vulnerabilities.length : Int) < 2 ^ 31) :
    calculate_stability_score analysis
      = min 100 (analysis.security_score + 2 * (analysis.vulnerabilities.length : Int)) := by
  unfold calculate_stability_score
  simp only
  rw [critical_count_foldl _ 0 (le_refl _) (by omega)]
  unfold int_add int_mul
  simp only [zero_add]
  rw [int_wrap_of_range ((analysis.vulnerabilities.length : Int) * 2) (by omega) (by omega),
    int_wrap_of_range _ (by omega) (by omega)]
  split_ifs <;> omega

theorem calculate_stability_score_analyze (apk_path : String) :
    calculate_stability_score (analyze apk_path) = 85 := by
  unfold analyze
  decide

/-! ### A match beyond the range of `int position` -/

theorem scan_pattern_simd_meta_inf_padded :
    scan_pattern_simd meta_inf_padded (bytes "META-INF") = .ok [2, 13] ∧
    (bytes "META-INF").length = 8 ∧
    (meta_inf_buffer.drop 2).take 8 = bytes "META-INF" ∧
    (meta_inf_buffer.drop 13).take 8 = bytes "META-INF" := by
  decide

/-! ## Claims -/

/-- C1, defect in the code: the buffer `abca` holds the target `a` at the offsets 0 and 3,
and the claim has `scan_byte_simd` return exactly these; the code evaluates the chunk-loop
bound `data_len - 32` in `size_t`, where it wraps to `2 ^ 64 - 28`, enters the chunk loop
at `i = 0` and loads 32 bytes from a buffer of 4. -/
theorem scan_byte_simd_faults_on_short_buffer :
    scan_byte_simd (bytes "abca") 97 = .error (.out_of_bounds 0 32 4) ∧
    (List.range 4).filter (fun i => (bytes "abca")[i]? == some 97) = [0, 3] := by
  decide

/-- C2, defect in the code: on the 11-byte buffer `hello world` with target `o` the scalar
scan returns `[4, 7]`, and `scan_byte_simd` does not return the same sequence: its chunk
loop is entered because `11 - 32` wraps in `size_t`, and the first load leaves the buffer. -/
theorem scan_byte_simd_differs_from_scalar_on_short_buffer :
    scan_byte_simd (bytes "hello world") 111 = .error (.out_of_bounds 0 32 11) ∧
    scan_byte_scalar (bytes "hello world") 111 = [4, 7] := by
  decide

/-- C3, defect in the code: the literal `bc` occurs in `abcabc` at the offsets 1 and 4, and
the claim has `scan_pattern_simd` return this set; the code hands the 6-byte buffer to
`scan_byte_simd`, whose chunk loop reads 32 bytes at offset 0. -/
theorem scan_pattern_simd_faults_on_short_buffer :
    scan_pattern_simd (bytes "abcabc") (bytes "bc") = .error (.out_of_bounds 0 32 6) ∧
    (List.range 6).filter
        (fun i => decide (i + 2 ≤ 6) && (((bytes "abcabc").drop i).take 2 == bytes "bc"))
      = [1, 4] := by
  decide

/-- C4, defect in the code: for `data_len = 5` the chunk loop should run `5 / 32 = 0`
times; the bound `data_len - 32` is `2 ^ 64 - 27` in `size_t`, so the guard holds at
`i = 0`, and the iteration that follows loads the bytes `[0, 32)` of a 5-byte buffer. -/
theorem chunk_loop_entered_on_short_buffer :
    5 / 32 = 0 ∧ size_sub 5 32 = 2 ^ 64 - 27 ∧ chunk_guard 0 5 = true ∧
    loadu_si256 (bytes "hello") 0 = .error (.out_of_bounds 0 32 5) ∧
    chunk_loop 1 (bytes "hello") 108 0 [] = .error (.out_of_bounds 0 32 5) := by
  decide

/-- C5, the claim as stated fails: on the text of the repository's test program the default
catalog yields the match of `Certificate Pinning` at offset 38 before the match of
`Root Detection` at offset 20. -/
theorem find_patterns_in_text_not_sorted :
    (find_patterns_in_text default_patterns test_text).map (fun m => m.position) = [38, 20] ∧
    ¬ (find_patterns_in_text default_patterns test_text).Pairwise
        (fun a b => a.position ≤ b.position) := by
  decide

/-- C5, amended: the matches of one catalog entry form one block of the result, the blocks
follow the catalog order, and inside the block of one pattern the positions are in
non-decreasing order (text shorter than `2 ^ 31` bytes, regex library iterating from left
to right).  No order is promised across patterns. -/
theorem find_patterns_in_text_sorted_within_pattern (E : RegexEngine) (hE : E.Lawful)
    (before after : List (PatternDefinition E)) (p : PatternDefinition E) (text : List Byte)
    (hlen : text.length < 2 ^ 31) :
    find_patterns_in_text (before ++ p :: after) text
        = find_patterns_in_text before text ++ find_patterns_in_text [p] text
          ++ find_patterns_in_text after text ∧
      (find_patterns_in_text [p] text).Pairwise (fun a b => a.position ≤ b.position) := by
  refine ⟨?_, ?_⟩
  · rw [find_patterns_in_text_append, ← List.singleton_append, find_patterns_in_text_append,
      List.append_assoc]
  · rw [find_patterns_in_text_single]
    exact pattern_hits_sorted hE p text hlen

/-- Witness of C5 amended: the fragment engine on the test text, with the catalog
`Certificate Pinning`, `Root Detection` and the block of `Root Detection`. -/
theorem find_patterns_in_text_sorted_within_pattern_witness :
    frag_engine.Lawful ∧ test_text.length < 2 ^ 31 ∧
    (find_patterns_in_text ([cert_pinning] ++ root_detection :: []) test_text
        = find_patterns_in_text [cert_pinning] test_text
          ++ find_patterns_in_text [root_detection] test_text
          ++ find_patterns_in_text ([] : List (PatternDefinition frag_engine)) test_text ∧
      (find_patterns_in_text [root_detection] test_text).Pairwise
        (fun a b => a.position ≤ b.position)) :=
  ⟨frag_engine_lawful, by decide,
    find_patterns_in_text_sorted_within_pattern frag_engine frag_engine_lawful
      [cert_pinning] [] root_detection test_text (by decide)⟩

/-- C6, the claim as stated fails: on a 32-byte buffer that starts with `ab`, the patterns
`ab` and `a`, listed in this order, both match at offset 0, and the hit of `a`, the later
pattern, comes first. -/
theorem scan_multiple_not_by_insertion_rank :
    ¬ (∀ (data : List Byte) (patterns : List (List Byte)) (result : List (Nat × List Byte)),
        scan_multiple_patterns_simd data patterns = .ok result →
        result.Pairwise
          (fun x y => x.1 = y.1 → patterns.indexOf x.2 ≤ patterns.indexOf y.2)) := by
  intro h
  have h1 : scan_multiple_patterns_simd ab_buffer [bytes "ab", bytes "a"]
      = .ok [(0, bytes "a"), (0, bytes "ab")] := by decide
  have h2 := h ab_buffer [bytes "ab", bytes "a"] _ h1
  revert h2
  decide

/-- C6, amended: on every buffer of at least 32 bytes `scan_multiple_patterns_simd` returns
its hits ordered by offset, and hits at one offset ordered by the bytes of the pattern
(`operator<` of `std::string`): of two patterns that match at the same offset the hit of
the lexicographically smaller one comes first, whatever their places in the list. -/
theorem scan_multiple_sorted_by_offset_then_bytes (data : List Byte)
    (patterns : List (List Byte)) (h32 : 32 ≤ data.length) (h64 : data.length < 2 ^ 64) :
    ∃ result, scan_multiple_patterns_simd data patterns = .ok result ∧
      result.Pairwise (fun x y => x.1 < y.1 ∨ (x.1 = y.1 ∧ string_lt y.2 x.2 = false)) :=
  scan_multiple_long_sorted data patterns h32 h64

/-- Witness of C6 amended: the 32-byte buffer that starts with `ab`. -/
theorem scan_multiple_sorted_by_offset_then_bytes_witness :
    32 ≤ ab_buffer.length ∧ ab_buffer.length < 2 ^ 64 ∧
    ∃ result, scan_multiple_patterns_simd ab_buffer [bytes "ab", bytes "a"] = .ok result ∧
      result.Pairwise (fun x y => x.1 < y.1 ∨ (x.1 = y.1 ∧ string_lt y.2 x.2 = false)) :=
  ⟨by decide, by decide,
    scan_multiple_sorted_by_offset_then_bytes ab_buffer [bytes "ab", bytes "a"]
      (by decide) (by decide)⟩

/-- C7: let the catalog receive `A`, then the patterns `mid`, then `B`, then the patterns
`post`, through `add_pattern`.  If the compiled regexes of `A` and `B` both have a match
that starts at offset `k`, then in the result of `find_patterns_in_text` the match of `A`
at `k` stands before the match of `B` at `k`. -/
theorem find_patterns_in_text_tie_break (E : RegexEngine)
    (catalog mid post : List (PatternDefinition E)) (A B : PatternDefinition E)
    (reA reB : E.Regex) (text : List Byte) (k lenA lenB : Nat)
    (hA : A.compiled_regex = some reA) (hB : B.compiled_regex = some reB)
    (hkA : (k, lenA) ∈ E.find_all reA text) (hkB : (k, lenB) ∈ E.find_all reB text) :
    List.Sublist [make_match A text (k, lenA), make_match B text (k, lenB)]
      (find_patterns_in_text
        (post.foldl add_pattern
          (add_pattern (mid.foldl add_pattern (add_pattern catalog A)) B)) text) := by
  have hcat : post.foldl add_pattern
      (add_pattern (mid.foldl add_pattern (add_pattern catalog A)) B)
      = (catalog ++ [A] ++ mid) ++ ([B] ++ post) := by
    simp [foldl_add_pattern, add_pattern]
  have hmA : make_match A text (k, lenA) ∈ find_patterns_in_text (catalog ++ [A] ++ mid) text := by
    rw [find_patterns_in_text_append, find_patterns_in_text_append,
      find_patterns_in_text_single]
    refine List.mem_append_left _ (List.mem_append_right _ ?_)
    simp only [pattern_hits, hA]
    exact List.mem_map_of_mem _ hkA
  have hmB : make_match B text (k, lenB) ∈ find_patterns_in_text ([B] ++ post) text := by
    rw [find_patterns_in_text_append, find_patterns_in_text_single]
    refine List.mem_append_left _ ?_
    simp only [pattern_hits, hB]
    exact List.mem_map_of_mem _ hkB
  rw [hcat, find_patterns_in_text_append]
  exact List.Sublist.append (List.singleton_sublist.mpr hmA) (List.singleton_sublist.mpr hmB)

/-- Witness of C7: `auth` is added to the default catalog before `authenticate`; both match
the text `authenticate` at offset 0. -/
theorem find_patterns_in_text_tie_break_witness :
    auth_pattern.compiled_regex = some auth_regex ∧
    authenticate_pattern.compiled_regex = some authenticate_regex ∧
    (0, 4) ∈ frag_engine.find_all auth_regex (bytes "authenticate") ∧
    (0, 12) ∈ frag_engine.find_all authenticate_regex (bytes "authenticate") ∧
    List.Sublist
      [make_match auth_pattern (bytes "authenticate") (0, 4),
        make_match authenticate_pattern (bytes "authenticate") (0, 12)]
      (find_patterns_in_text
        (([] : List (PatternDefinition frag_engine)).foldl add_pattern
          (add_pattern
            (([] : List (PatternDefinition frag_engine)).foldl add_pattern
              (add_pattern default_patterns auth_pattern))
            authenticate_pattern))
        (bytes "authenticate")) :=
  ⟨rfl, rfl, by decide, by decide,
    find_patterns_in_text_tie_break frag_engine default_patterns [] [] auth_pattern
      authenticate_pattern auth_regex authenticate_regex
      (bytes "authenticate") 0 4 12 rfl rfl (by decide) (by decide)⟩

/-- C8: `find_patterns_by_category(text, c)` equals `find_patterns_in_text` run on the
catalog restricted, order preserved, to the patterns whose category list contains `c` or
contains `all`; with one pattern each of category `all`, `game` and `finance`, the scan for
`game` returns what the first two alone return. -/
theorem find_patterns_by_category_eq_restricted_scan (E : RegexEngine)
    (catalog : List (PatternDefinition E)) (text : List Byte) (c : String)
    (pa pg pf : PatternDefinition E) :
    find_patterns_by_category catalog text c
        = find_patterns_in_text
            (catalog.filter
              (fun p => decide (c ∈ p.applicable_to ∨ "all" ∈ p.applicable_to))) text ∧
      find_patterns_by_category
          [{ pa with applicable_to := ["all"] }, { pg with applicable_to := ["game"] },
            { pf with applicable_to := ["finance"] }] text "game"
        = find_patterns_in_text
          [{ pa with applicable_to := ["all"] }, { pg with applicable_to := ["game"] }] text := by
  have hfilter : ∀ (l : List (PatternDefinition E)) (c : String),
      l.filter (fun p => applies_to p c)
        = l.filter (fun p => decide (c ∈ p.applicable_to ∨ "all" ∈ p.applicable_to)) := by
    intro l c
    apply List.filter_congr
    intro p _
    simp [applies_to, Bool.or_comm]
  have hgen : ∀ (l : List (PatternDefinition E)) (c : String),
      find_patterns_by_category l text c
        = find_patterns_in_text (l.filter (fun p => applies_to p c)) text := by
    intro l c
    unfold find_patterns_by_category find_patterns_in_text
    exact find_by_category_loop_eq text c l []
  refine ⟨by rw [hgen, hfilter], ?_⟩
  rw [hgen]
  have h1 : applies_to { pa with applicable_to := ["all"] } "game" = true := by
    simp [applies_to]
  have h2 : applies_to { pg with applicable_to := ["game"] } "game" = true := by
    simp [applies_to]
  have h3 : applies_to { pf with applicable_to := ["finance"] } "game" = false := by
    simp [applies_to]
  simp [List.filter_cons, h1, h2, h3]

/-- C9: a `PatternDefinition` of type `regex` whose body does not compile is constructed,
with the body as given and a null compiled regex; `add_pattern` stores it, as the new last
entry of the catalog, where it stays when further patterns are added; for every text the
scan returns a list, with no match for this pattern, the same list as the scan of the
catalog without it. -/
theorem malformed_regex_is_skipped (E : RegexEngine) (n d : String) (p : List Byte)
    (s : String) (app_to : List String) (patch_t : String) (hbad : E.compile p = none)
    (catalog more : List (PatternDefinition E)) (text : List Byte) :
    ((PatternDefinition.new E n d "regex" p s app_to patch_t).compiled_regex = none ∧
      (PatternDefinition.new E n d "regex" p s app_to patch_t).pattern = p ∧
      (PatternDefinition.new E n d "regex" p s app_to patch_t).name = n) ∧
    ((add_pattern catalog (PatternDefinition.new E n d "regex" p s app_to patch_t)).length
        = catalog.length + 1 ∧
      (add_pattern catalog (PatternDefinition.new E n d "regex" p s app_to patch_t)).getLast?
        = some (PatternDefinition.new E n d "regex" p s app_to patch_t) ∧
      more.foldl add_pattern
          (add_pattern catalog (PatternDefinition.new E n d "regex" p s app_to patch_t))
        = catalog ++ PatternDefinition.new E n d "regex" p s app_to patch_t :: more) ∧
    (pattern_hits text (PatternDefinition.new E n d "regex" p s app_to patch_t) = [] ∧
      find_patterns_in_text [PatternDefinition.new E n d "regex" p s app_to patch_t] text
        = []) ∧
    find_patterns_in_text
        (more.foldl add_pattern
          (add_pattern catalog (PatternDefinition.new E n d "regex" p s app_to patch_t))) text
      = find_patterns_in_text (more.foldl add_pattern catalog) text := by
  have hnull : (PatternDefinition.new E n d "regex" p s app_to patch_t).compiled_regex = none := by
    simp [PatternDefinition.new, hbad]
  have hhits : pattern_hits text (PatternDefinition.new E n d "regex" p s app_to patch_t)
      = [] := by
    simp only [pattern_hits, hnull]
  have hnone : find_patterns_in_text
      [PatternDefinition.new E n d "regex" p s app_to patch_t] text = [] := by
    rw [find_patterns_in_text_single, hhits]
  refine ⟨⟨hnull, rfl, rfl⟩, ⟨?_, ?_, ?_⟩, ⟨hhits, hnone⟩, ?_⟩
  · simp [add_pattern]
  · simp [add_pattern]
  · rw [foldl_add_pattern, add_pattern, List.append_assoc, List.singleton_append]
  · rw [foldl_add_pattern, foldl_add_pattern, add_pattern, find_patterns_in_text_append,
      find_patterns_in_text_append, find_patterns_in_text_append, hnone, List.append_nil]

/-- Witness of C9: the body `(unterminated` does not compile; the entry is added to the
default catalog, which has eight entries, and `auth` after it; the catalog then has ten
entries, the malformed one the ninth, and the scan of the text of the test program is the
scan of the default catalog followed by `auth`. -/
theorem malformed_regex_is_skipped_witness :
    frag_engine.compile (bytes "(unterminated") = none ∧
    default_patterns.length = 8 ∧
    [auth_pattern].foldl add_pattern (add_pattern default_patterns unterminated_pattern)
      = default_patterns ++ unterminated_pattern :: [auth_pattern] ∧
    pattern_hits test_text unterminated_pattern = [] ∧
    find_patterns_in_text
        ([auth_pattern].foldl add_pattern (add_pattern default_patterns unterminated_pattern))
        test_text
      = find_patterns_in_text ([auth_pattern].foldl add_pattern default_patterns) test_text :=
  ⟨rfl, by decide,
    (malformed_regex_is_skipped frag_engine "Bad" "malformed" (bytes "(unterminated") "LOW"
      ["all"] "none" rfl default_patterns [auth_pattern] test_text).2.1.2.2,
    (malformed_regex_is_skipped frag_engine "Bad" "malformed" (bytes "(unterminated") "LOW"
      ["all"] "none" rfl default_patterns [auth_pattern] test_text).2.2.1.1,
    (malformed_regex_is_skipped frag_engine "Bad" "malformed" (bytes "(unterminated") "LOW"
      ["all"] "none" rfl default_patterns [auth_pattern] test_text).2.2.2⟩

/-- C10, defect in the code: for the buffer `abcde`, the match `(1, 1)` and the context size
`2 ^ 64 - 1` the claimed context is the whole buffer without markers; in the code the sum
`match_pos + match_len + context_size` wraps to 1 in `size_t`, the window is `[0, 1)`, and
the result is `a...`. -/
theorem extract_context_wraps_on_huge_context_size :
    extract_context (bytes "abcde") 1 1 (2 ^ 64 - 1) = .ok (bytes "a...") ∧
    context_spec (bytes "abcde") 1 1 (2 ^ 64 - 1) = bytes "abcde" := by
  decide

/-- C11, defect in the code: the match `world` lies inside `hello world` at `(6, 5)`, and
the claim has every returned context contain it; with the context size `2 ^ 64 - 11` the sum
`match_pos + match_len + context_size` wraps to 0 in `size_t`, the window is empty, and the
result is the marker alone. -/
theorem extract_context_can_lose_the_match :
    extract_context (bytes "hello world") 6 5 (2 ^ 64 - 11) = .ok (bytes "...") ∧
    ((bytes "hello world").drop 6).take 5 = bytes "world" ∧
    ¬ (bytes "world" <:+: bytes "...") := by
  decide

/-- C12: for every buffer, every match inside the buffer and every context size, also one
for which the `size_t` sum wraps, `extract_context` returns a string of at most
`length + 2 * C + 6` bytes. -/
theorem extract_context_length_bound (content : List Byte)
    (match_pos match_len context_size : Nat)
    (hin : match_pos + match_len ≤ content.length) (hlen : content.length < 2 ^ 64) :
    ∃ context, extract_context content match_pos match_len context_size = .ok context ∧
      context.length ≤ match_len + 2 * context_size + 6 :=
  extract_context_length_le content match_pos match_len context_size hin hlen

/-- Witness of C12: the match `rootbeer` at `(20, 8)` in the test text, context size 10. -/
theorem extract_context_length_bound_witness :
    20 + 8 ≤ test_text.length ∧ test_text.length < 2 ^ 64 ∧
    ∃ context, extract_context test_text 20 8 10 = .ok context ∧
      context.length ≤ 8 + 2 * 10 + 6 :=
  ⟨by decide, by decide, extract_context_length_bound test_text 20 8 10 (by decide) (by decide)⟩

/-- C13, the claim as stated fails: for `abcde`, the match `(1, 1)` and context size 2 the
lower bound is clamped (`1 - 2 < 0`) and the upper bound is not (`1 + 1 + 2 <= 5`); the
claim puts the marker in front, the code puts it behind. -/
theorem extract_context_markers_not_on_clamping :
    extract_context (bytes "abcde") 1 1 2 = .ok (bytes "abcd...") ∧
    context_clamp_spec (bytes "abcde") 1 1 2 = bytes "...abcd" := by
  decide

/-- C13, amended: for a match inside the buffer and `offset + length + C < 2 ^ 64`,
`extract_context` prepends the marker exactly when the window starts after the buffer start
(`C < offset`, the lower bound was not clamped), and appends it exactly when the window ends
before the buffer end (`offset + length + C < len`, the upper bound was not clamped). -/
theorem extract_context_markers_on_cropping (content : List Byte)
    (match_pos match_len context_size : Nat)
    (hin : match_pos + match_len ≤ content.length)
    (hfit : match_pos + match_len + context_size < 2 ^ 64) :
    extract_context content match_pos match_len context_size
      = .ok ((if context_size < match_pos then ellipsis else [])
          ++ (content.drop (match_pos - context_size)).take
              (min content.length (match_pos + match_len + context_size)
                - (match_pos - context_size))
          ++ (if match_pos + match_len + context_size < content.length
              then ellipsis else [])) :=
  extract_context_markers content match_pos match_len context_size hin hfit

/-- Witness of C13 amended: `abcde`, the match `(1, 1)`, context size 2. -/
theorem extract_context_markers_on_cropping_witness :
    1 + 1 ≤ (bytes "abcde").length ∧ 1 + 1 + 2 < 2 ^ 64 ∧
    extract_context (bytes "abcde") 1 1 2
      = .ok ((if 2 < 1 then ellipsis else [])
          ++ ((bytes "abcde").drop (1 - 2)).take (min (bytes "abcde").length (1 + 1 + 2) - (1 - 2))
          ++ (if 1 + 1 + 2 < (bytes "abcde").length then ellipsis else [])) :=
  ⟨by decide, by decide,
    extract_context_markers_on_cropping (bytes "abcde") 1 1 2 (by decide) (by decide)⟩

/-- C14: for every buffer, every match with `offset + length <= len` and every context size,
`extract_context` returns a string (the `substr` call does not throw): a marker or nothing,
then a window each byte of which is copied from an index below `len`, then a marker or
nothing. -/
theorem extract_context_never_out_of_range (content : List Byte)
    (match_pos match_len context_size : Nat)
    (hin : match_pos + match_len ≤ content.length) :
    ∃ prefix_marker window suffix_marker,
      extract_context content match_pos match_len context_size
        = .ok (prefix_marker ++ window ++ suffix_marker) ∧
      (prefix_marker = [] ∨ prefix_marker = ellipsis) ∧
      (suffix_marker = [] ∨ suffix_marker = ellipsis) ∧
      context_start match_pos context_size ≤ content.length ∧
      ∀ j, j < window.length →
        context_start match_pos context_size + j < content.length ∧
        window[j]? = content[context_start match_pos context_size + j]? :=
  extract_context_in_bounds content match_pos match_len context_size hin

/-- Witness of C14: the match `world` at the end of `hello world`, context size
`2 ^ 64 - 1`. -/
theorem extract_context_never_out_of_range_witness :
    6 + 5 ≤ (bytes "hello world").length ∧
    ∃ prefix_marker window suffix_marker,
      extract_context (bytes "hello world") 6 5 (2 ^ 64 - 1)
        = .ok (prefix_marker ++ window ++ suffix_marker) ∧
      (prefix_marker = [] ∨ prefix_marker = ellipsis) ∧
      (suffix_marker = [] ∨ suffix_marker = ellipsis) ∧
      context_start 6 (2 ^ 64 - 1) ≤ (bytes "hello world").length ∧
      ∀ j, j < window.length →
        context_start 6 (2 ^ 64 - 1) + j < (bytes "hello world").length ∧
        window[j]? = (bytes "hello world")[context_start 6 (2 ^ 64 - 1) + j]? :=
  ⟨by decide,
    extract_context_never_out_of_range (bytes "hello world") 6 5 (2 ^ 64 - 1) (by decide)⟩

/-- C15, defect in the code: in `a META-INF b META-INF` the literal `META-INF` occurs
twice, at the offsets 2 and 13 (offset 14 holds `ETA-INF`), and the scan should return these
two matches; the buffer has 21 bytes, the bound `data_len - 32` wraps in `size_t`, the scan
of the first byte `M` loads 32 bytes at offset 0, and no list is returned. -/
theorem meta_inf_scenario_returns_no_list :
    meta_inf_buffer.length = 21 ∧
    scan_pattern_simd meta_inf_buffer (bytes "META-INF") = .error (.out_of_bounds 0 32 21) ∧
    occurrences meta_inf_buffer (bytes "META-INF") = [2, 13] ∧
    (meta_inf_buffer.drop 14).take 8 = bytes "ETA-INF" := by
  decide

/-- C16, defect in the code: scanning `aaaa` for `aa` should return `[0, 1, 2]`; the buffer
has 4 bytes, the bound `data_len - 32` wraps in `size_t`, and the scan of the first byte
loads 32 bytes at offset 0. -/
theorem scan_pattern_simd_overlap_faults_on_short_buffer :
    scan_pattern_simd (bytes "aaaa") (bytes "aa") = .error (.out_of_bounds 0 32 4) ∧
    (List.range 4).filter
        (fun i => decide (i + 2 ≤ 4) && (((bytes "aaaa").drop i).take 2 == bytes "aa"))
      = [0, 1, 2] := by
  decide

/-- C17, the claim as stated fails: the literal patterns `P1` and `P2`, both with body
`foo`, scanned over `foo` give no match. -/
theorem find_patterns_in_text_ignores_literals :
    literal_p1.compiled_regex = none ∧ literal_p2.compiled_regex = none ∧
    find_patterns_in_text (add_pattern (add_pattern [] literal_p1) literal_p2) (bytes "foo")
      = [] :=
  ⟨rfl, rfl, by decide⟩

/-- C17, amended: `find_patterns_in_text` reports regex patterns only.  A catalog pattern
whose type is not `regex` is stored without a compiled regex and contributes no match: for
every catalog and every text the result is the one of the catalog without it. -/
theorem find_patterns_in_text_skips_non_regex (E : RegexEngine) (n d pt : String)
    (p : List Byte) (s : String) (app_to : List String) (patch_t : String)
    (hpt : pt ≠ "regex") (catalog more : List (PatternDefinition E)) (text : List Byte) :
    (PatternDefinition.new E n d pt p s app_to patch_t).compiled_regex = none ∧
    find_patterns_in_text [PatternDefinition.new E n d pt p s app_to patch_t] text = [] ∧
    find_patterns_in_text
        (more.foldl add_pattern
          (add_pattern catalog (PatternDefinition.new E n d pt p s app_to patch_t))) text
      = find_patterns_in_text (more.foldl add_pattern catalog) text := by
  have hnull := new_non_regex_is_null E n d pt p s app_to patch_t hpt
  refine ⟨hnull, ?_, find_patterns_in_text_skip_null _ hnull catalog more text⟩
  rw [find_patterns_in_text_single, pattern_hits_of_null _ text hnull]

/-- Witness of C17 amended: the literal `foo` of type `string`, added to the default
catalog, scanned over `foo`. -/
theorem find_patterns_in_text_skips_non_regex_witness :
    "string" ≠ "regex" ∧
    find_patterns_in_text
        (([] : List (PatternDefinition frag_engine)).foldl add_pattern
          (add_pattern default_patterns
            (PatternDefinition.new frag_engine "P1" "literal foo" "string" (bytes "foo")
              "LOW" ["all"] "none"))) (bytes "foo")
      = find_patterns_in_text
          (([] : List (PatternDefinition frag_engine)).foldl add_pattern default_patterns)
          (bytes "foo") :=
  ⟨by decide,
    (find_patterns_in_text_skips_non_regex frag_engine "P1" "literal foo" "string"
      (bytes "foo") "LOW" ["all"] "none" (by decide) default_patterns [] (bytes "foo")).2.2⟩

/-- C18, the claim as stated fails: `Root Detection` is in the default catalog of 8
patterns; adding it again gives 9 patterns, two of them named `Root Detection`, and the
scan of the test text reports the occurrence at offset 20 twice. -/
theorem add_pattern_keeps_duplicates :
    default_patterns.length = 8 ∧
    (add_pattern default_patterns root_detection).length = 9 ∧
    ((add_pattern default_patterns root_detection).filter
      (fun q => q.name = "Root Detection")).length = 2 ∧
    (find_patterns_in_text (add_pattern default_patterns root_detection) test_text).map
        (fun m => (m.pattern_name, m.position))
      = [("Certificate Pinning", 38), ("Root Detection", 20), ("Root Detection", 20)] := by
  decide

/-- C18, amended: `add_pattern` always appends.  The number of stored patterns grows by
one, the number of entries that carry the name of the added pattern grows by one, and a
later scan returns the matches of the old catalog followed by the matches of the added
entry, so an occurrence is reported once per stored entry. -/
theorem add_pattern_appends (E : RegexEngine) (catalog : List (PatternDefinition E))
    (p : PatternDefinition E) (text : List Byte) :
    (add_pattern catalog p).length = catalog.length + 1 ∧
    ((add_pattern catalog p).filter (fun q => q.name = p.name)).length
      = (catalog.filter (fun q => q.name = p.name)).length + 1 ∧
    find_patterns_in_text (add_pattern catalog p) text
      = find_patterns_in_text catalog text ++ find_patterns_in_text [p] text := by
  refine ⟨by simp [add_pattern], by simp [add_pattern], ?_⟩
  rw [find_patterns_in_text_add_pattern, find_patterns_in_text_single]

/-- C19, the claim as stated fails: the regex `a*` matches the empty string, and the scan
of the zero-length text with this pattern in the catalog returns one match, at position 0
with empty text. -/
theorem find_patterns_in_text_empty_text_not_empty :
    find_patterns_in_text (add_pattern [] star_pattern) [] ≠ [] ∧
    (find_patterns_in_text (add_pattern [] star_pattern) []).map
        (fun m => (m.pattern_name, m.position, m.matched_text))
      = [("Star", 0, [])] := by
  decide

/-- C19, amended: on the zero-length text every match that `find_patterns_in_text` returns
is an empty match at position 0, and the result is the empty list for every catalog none of
whose patterns matches the empty text (regex library keeping its matches inside the
text). -/
theorem find_patterns_in_text_on_empty_text (E : RegexEngine) (hE : E.Lawful)
    (catalog : List (PatternDefinition E)) :
    (∀ m ∈ find_patterns_in_text catalog [], m.position = 0 ∧ m.matched_text = []) ∧
    ((∀ p ∈ catalog, pattern_hits [] p = []) → find_patterns_in_text catalog [] = []) :=
  ⟨find_patterns_in_text_nil_text hE catalog,
    find_patterns_in_text_of_no_hits catalog []⟩

/-- Witness of C19 amended: the default catalog over the fragment engine returns the empty
list on the zero-length text. -/
theorem find_patterns_in_text_on_empty_text_witness :
    frag_engine.Lawful ∧ find_patterns_in_text default_patterns [] = [] :=
  ⟨frag_engine_lawful,
    (find_patterns_in_text_on_empty_text frag_engine frag_engine_lawful default_patterns).2
      (by decide)⟩

/-- C20, the claim as stated fails: `scan_pattern_simd` with the empty pattern returns an
empty list, not an error, and `scan_multiple_patterns_simd` given the empty string and `ab`
returns the hit of `ab`. -/
theorem empty_pattern_is_not_rejected :
    ¬ (∃ e, scan_pattern_simd ab_buffer [] = .error e) ∧
    scan_pattern_simd ab_buffer [] = .ok [] ∧
    scan_multiple_patterns_simd ab_buffer [[], bytes "ab"] = .ok [(0, bytes "ab")] := by
  refine ⟨?_, by decide, by decide⟩
  rintro ⟨e, he⟩
  have h : scan_pattern_simd ab_buffer [] = .ok [] := by decide
  rw [h] at he
  exact absurd he (by simp)

/-- C20, amended: a zero-length pattern is skipped silently.  `scan_pattern_simd` with
`pattern_len = 0` returns the empty list on every buffer, and
`scan_multiple_patterns_simd` given a list that contains the empty string behaves as on the
list without it. -/
theorem empty_pattern_is_skipped (data : List Byte) (pre post : List (List Byte)) :
    scan_pattern_simd data [] = .ok [] ∧
    scan_multiple_patterns_simd data (pre ++ [] :: post)
      = scan_multiple_patterns_simd data (pre ++ post) :=
  ⟨rfl, scan_multiple_skip_empty data pre post⟩

/-- C21, defect in the code: in `banana` the target `a` stands at the offsets 1, 3 and 5, a
strictly increasing list, which the claim has `scan_byte_simd` return; the buffer has 6
bytes, the bound `data_len - 32` wraps in `size_t`, and the chunk loop loads 32 bytes at
offset 0, so that no list is returned. -/
theorem scan_byte_simd_returns_no_list_on_banana :
    scan_byte_simd (bytes "banana") 97 = .error (.out_of_bounds 0 32 6) ∧
    scan_byte_scalar (bytes "banana") 97 = [1, 3, 5] := by
  decide

/-- C22, defect in the code: in `abcabc` the patterns `bc` and `a` occur at the offsets
1, 4 and 0, 3, and the claim has `scan_multiple_patterns_simd` return them with
non-decreasing offsets; on this 6-byte buffer the scan of the first pattern loads 32 bytes
at offset 0, and no list is returned. -/
theorem scan_multiple_returns_no_list_on_short_buffer :
    scan_multiple_patterns_simd (bytes "abcabc") [bytes "bc", bytes "a"]
      = .error (.out_of_bounds 0 32 6) ∧
    occurrences (bytes "abcabc") (bytes "bc") = [1, 4] ∧
    occurrences (bytes "abcabc") (bytes "a") = [0, 3] := by
  decide

/-- C23, the claim as stated fails: the empty string is listed once and occurs at offset 0
of the 32-byte buffer, but the result holds no pair for it. -/
theorem scan_multiple_drops_the_empty_pattern :
    ¬ (∀ (data : List Byte) (patterns : List (List Byte)),
        ∃ result, scan_multiple_patterns_simd data patterns = .ok result ∧
          ∀ (p : Nat) (w : List Byte), w ∈ patterns → p + w.length ≤ data.length →
            (data.drop p).take w.length = w →
            result.countP (fun x => decide (x = (p, w)))
              = patterns.countP (fun w' => decide (w' = w))) := by
  intro h
  obtain ⟨result, hres, hcount⟩ := h ab_buffer [[]]
  have hnil : scan_multiple_patterns_simd ab_buffer [[]] = .ok [] := by decide
  rw [hnil] at hres
  have hr : result = [] := by
    injection hres with h1
    exact h1.symm
  have h0 := hcount 0 [] (by simp) (by simp) (by simp)
  rw [hr] at h0
  simp at h0

/-- C23, amended: on every buffer of at least 32 bytes the result of
`scan_multiple_patterns_simd` contains the pair `(p, w)` exactly as many times as `w`
appears in the pattern list, for each listed non-empty `w` and each offset `p` at which `w`
occurs in the buffer, and contains nothing else; on the 72-byte test buffer with the five
patterns of the test program it returns the five hits listed. -/
theorem scan_multiple_hits_as_multiset (data : List Byte) (patterns : List (List Byte))
    (h32 : 32 ≤ data.length) (h64 : data.length < 2 ^ 64) :
    (∃ result, scan_multiple_patterns_simd data patterns = .ok result ∧
      ∀ (p : Nat) (w : List Byte),
        result.countP (fun x => decide (x = (p, w)))
          = if w ≠ [] ∧ p + w.length ≤ data.length ∧ (data.drop p).take w.length = w
            then patterns.countP (fun w' => decide (w' = w)) else 0) ∧
    scan_multiple_patterns_simd simd_test_data simd_test_patterns
      = .ok [(10, bytes "test"), (15, bytes "APK"), (24, bytes "META-INF"),
          (37, bytes "AndroidManifest.xml"), (61, bytes "classes.dex")] :=
  ⟨scan_multiple_long_count data patterns h32 h64, by decide⟩

/-- Witness of C23 amended: the test buffer and the pattern list of the test program. -/
theorem scan_multiple_hits_as_multiset_witness :
    32 ≤ simd_test_data.length ∧ simd_test_data.length < 2 ^ 64 ∧
    ∃ result, scan_multiple_patterns_simd simd_test_data simd_test_patterns = .ok result ∧
      ∀ (p : Nat) (w : List Byte),
        result.countP (fun x => decide (x = (p, w)))
          = if w ≠ [] ∧ p + w.length ≤ simd_test_data.length
              ∧ (simd_test_data.drop p).take w.length = w
            then simd_test_patterns.countP (fun w' => decide (w' = w)) else 0 :=
  ⟨by decide, by decide,
    (scan_multiple_hits_as_multiset simd_test_data simd_test_patterns
      (by decide) (by decide)).1⟩

/-- C25, defect in the code: a `CrackPattern` of type `regex` with the body `(unterminated`
should be constructed with the failure recorded on it; the constructor compiles the regex
outside any `try` block, so `std::regex_error` reaches the caller, whereas the constructor
of `PatternDefinition` catches it and leaves the compiled regex null. -/
theorem crack_pattern_constructor_throws (conf : Float) :
    CrackPattern.new frag_engine "p1" "Bad" "regex" (bytes "(unterminated") "login_bypass"
        "" "HIGH" conf "malformed" "none" true
      = .error .regex_error ∧
    (PatternDefinition.new frag_engine "Bad" "malformed" "regex" (bytes "(unterminated")
        "HIGH" ["all"] "none").compiled_regex = none :=
  ⟨rfl, rfl⟩

/-- C26: the counters returned by `analyze_text` equal the numbers of returned matches of
severity `CRITICAL`, `HIGH`, `MEDIUM` and `LOW`, and their sum is the number of returned
matches when every catalog pattern has one of these four severities (fewer than `2 ^ 31`
matches, the range of the `int` counters). -/
theorem analyze_text_counts (E : RegexEngine) (patterns : List (PatternDefinition E))
    (text : List Byte) (hfew : (find_patterns_in_text patterns text).length < 2 ^ 31) :
    (analyze_text patterns text).found_patterns = find_patterns_in_text patterns text ∧
    (analyze_text patterns text).critical_count
      = ((find_patterns_in_text patterns text).countP
          (fun m => decide (m.severity = "CRITICAL")) : Nat) ∧
    (analyze_text patterns text).high_count
      = ((find_patterns_in_text patterns text).countP
          (fun m => decide (m.severity = "HIGH")) : Nat) ∧
    (analyze_text patterns text).medium_count
      = ((find_patterns_in_text patterns text).countP
          (fun m => decide (m.severity = "MEDIUM")) : Nat) ∧
    (analyze_text patterns text).low_count
      = ((find_patterns_in_text patterns text).countP
          (fun m => decide (m.severity = "LOW")) : Nat) ∧
    ((∀ p ∈ patterns, p.severity = "CRITICAL" ∨ p.severity = "HIGH" ∨ p.severity = "MEDIUM"
        ∨ p.severity = "LOW") →
      (analyze_text patterns text).critical_count + (analyze_text patterns text).high_count
        + (analyze_text patterns text).medium_count + (analyze_text patterns text).low_count
        = ((find_patterns_in_text patterns text).length : Nat)) := by
  have hbound : (0 : Int) + ((find_patterns_in_text patterns text).length : Nat) < 2 ^ 31 := by
    omega
  obtain ⟨e0, e1, e2, e3, e4⟩ := count_severity_foldl (find_patterns_in_text patterns text)
    ⟨find_patterns_in_text patterns text, 0, 0, 0, 0⟩ (le_refl _) (le_refl _) (le_refl _)
    (le_refl _) hbound hbound hbound hbound
  simp only [Int.zero_add] at e1 e2 e3 e4
  refine ⟨e0, e1, e2, e3, e4, ?_⟩
  intro hsev
  have hall : ∀ m ∈ find_patterns_in_text patterns text,
      m.severity = "CRITICAL" ∨ m.severity = "HIGH" ∨ m.severity = "MEDIUM"
        ∨ m.severity = "LOW" := by
    intro m hm
    obtain ⟨p, hp, heq⟩ := severity_of_found patterns text m hm
    rw [heq]
    exact hsev p hp
  have hsum := severity_counts_sum _ hall
  unfold analyze_text
  simp only
  rw [e1, e2, e3, e4]
  exact_mod_cast hsum

/-- Witness of C26: the default catalog on the text of the test program. -/
theorem analyze_text_counts_witness :
    (find_patterns_in_text default_patterns test_text).length < 2 ^ 31 ∧
    (analyze_text default_patterns test_text).medium_count
      = ((find_patterns_in_text default_patterns test_text).countP
          (fun m => decide (m.severity = "MEDIUM")) : Nat) :=
  ⟨by decide, (analyze_text_counts frag_engine default_patterns test_text (by decide)).2.2.2.1⟩

/-- C27: `APKProcessor::analyze` returns the same result for every `apk_path`: the 8
vulnerabilities listed, 3 protections, `security_score` 69, `engines_used` 1 and `success`
true. -/
theorem analyze_is_constant (apk_path : String) :
    analyze apk_path
      = ⟨["Excessive Permission: SEND_SMS", "Excessive Permission: RECEIVE_SMS",
          "Excessive Permission: READ_SMS", "Excessive Permission: READ_CONTACTS",
          "Excessive Permission: WRITE_CONTACTS", "Hardcoded API Key", "Weak Cryptography",
          "Cleartext Traffic Allowed"],
        ["Certificate Pinning", "Root Detection", "Anti-Debug"], [], 69, [], 1, true⟩ := by
  unfold analyze
  decide

/-- C28, defect in the code: on the 3-byte buffer `abc` the bound `data_len - 32` is
`2 ^ 64 - 29` in `size_t`; the guard `i <= data_len - 32` holds at every value the loop
variable takes, wrap-around of `i += 32` included, so the chunk loop never ends through its
guard: with any amount of fuel it stops on a fault, the 32-byte load outside the buffer,
and `scan_byte_simd` returns no list. -/
theorem chunk_loop_does_not_terminate_on_short_buffer :
    size_sub 3 32 = 2 ^ 64 - 29 ∧
    (∀ n, chunk_guard (chunk_index n) 3 = true) ∧
    (∀ fuel, ∃ e, chunk_loop fuel (bytes "abc") 97 0 [] = .error e) ∧
    scan_byte_simd (bytes "abc") 97 = .error (.out_of_bounds 0 32 3) :=
  ⟨by decide, fun n => chunk_guard_short 3 n (by decide),
    fun fuel => chunk_loop_short_never_ok (bytes "abc") 97 (by decide) fuel, by decide⟩

/-- C29: for every 32-bit mask `m`, bit 31 included, and every chunk base `i`, the
extraction loop appends `i + b` for exactly the set bit positions `b` of `m`, in increasing
order of `b`, and runs `popcount(m)` iterations: any fuel of at least `popcount(m)`, such
as the 32 of `scan_byte_simd`, gives this result and this number of iterations. -/
theorem extraction_loop_enumerates_set_bits (mask i : Nat) (acc : List Nat)
    (hm : mask < 2 ^ 32) :
    extract_positions 32 mask i acc = acc ++ (set_bits mask).map (fun b => i + b) ∧
    (set_bits mask).Pairwise (fun a b => a < b) ∧
    (∀ b, b ∈ set_bits mask ↔ b < 32 ∧ mask.testBit b = true) ∧
    popcount mask ≤ 32 ∧
    (∀ fuel, popcount mask ≤ fuel →
      extract_iterations fuel mask = popcount mask ∧
      extract_positions fuel mask i acc = acc ++ (set_bits mask).map (fun b => i + b)) := by
  refine ⟨extract_positions_set_bits mask i acc 32 hm (popcount_le mask),
    set_bits_sorted mask, ?_, popcount_le mask, ?_⟩
  · intro b
    simp [set_bits]
  · intro fuel hf
    exact ⟨extract_iterations_eq_popcount mask fuel hm hf,
      extract_positions_set_bits mask i acc fuel hm hf⟩

/-- Witness of C29: the mask with the bits 0, 2 and 31 set, chunk base 64. -/
theorem extraction_loop_enumerates_set_bits_witness :
    2 ^ 31 + 5 < 2 ^ 32 ∧
    extract_positions 32 (2 ^ 31 + 5) 64 [] = [] ++ (set_bits (2 ^ 31 + 5)).map (fun b => 64 + b) ∧
    set_bits (2 ^ 31 + 5) = [0, 2, 31] ∧
    extract_positions 32 (2 ^ 31 + 5) 64 [] = [64, 66, 95] ∧
    extract_iterations 32 (2 ^ 31 + 5) = 3 :=
  ⟨by decide,
    (extraction_loop_enumerates_set_bits (2 ^ 31 + 5) 64 [] (by decide)).1,
    by decide, by decide, by decide⟩

/-- C30: the result of `find_patterns_in_text` is the concatenation, over the patterns of
the catalog in the order of their insertion, of the matches of each pattern; a pattern
without a compiled regex contributes nothing, and the matches of a compiled pattern are
those of the regex iterator in its order, each starting at or after the end of the one
before (regex library iterating from left to right). -/
theorem find_patterns_in_text_is_concatenation (E : RegexEngine) (hE : E.Lawful)
    (catalog added : List (PatternDefinition E)) (text : List Byte) :
    find_patterns_in_text (added.foldl add_pattern catalog) text
      = (catalog ++ added).flatMap (pattern_hits text) ∧
    (∀ p : PatternDefinition E, p.compiled_regex = none → pattern_hits text p = []) ∧
    (∀ (p : PatternDefinition E) (re : E.Regex), p.compiled_regex = some re →
      pattern_hits text p = (E.find_all re text).map (make_match p text) ∧
      (E.find_all re text).Pairwise (fun a b => a.1 + a.2 ≤ b.1)) := by
  refine ⟨?_, ?_, ?_⟩
  · rw [foldl_add_pattern, find_patterns_in_text_eq]
  · intro p hnull
    exact pattern_hits_of_null p text hnull
  · intro p re hre
    exact ⟨pattern_hits_of_compiled p re text hre, (hE re text).2⟩

/-- Witness of C30: the default catalog, `auth` and `authenticate` added, over the fragment
engine. -/
theorem find_patterns_in_text_is_concatenation_witness :
    frag_engine.Lawful ∧
    find_patterns_in_text ([auth_pattern, authenticate_pattern].foldl add_pattern default_patterns)
        (bytes "authenticate")
      = (default_patterns ++ [auth_pattern, authenticate_pattern]).flatMap
          (pattern_hits (bytes "authenticate")) :=
  ⟨frag_engine_lawful,
    (find_patterns_in_text_is_concatenation frag_engine frag_engine_lawful default_patterns
      [auth_pattern, authenticate_pattern] (bytes "authenticate")).1⟩

/-- C31: `scan_multiple_patterns_simd` is insensitive to the order of its pattern list.  For
every buffer (its length a `size_t`) and every two pattern lists that are permutations of
each other the two calls have the same outcome, the same sequence of pairs or, on a buffer
under 32 bytes that a non-empty pattern fits in, the same fault; a returned sequence is
ordered by offset, hits at one offset by the bytes of the pattern, a key in which the place
of the pattern in the list has no part; and on every buffer of 32 bytes or more a sequence
is returned. -/
theorem scan_multiple_insensitive_to_pattern_order (data : List Byte)
    (patterns patterns' : List (List Byte))
    (h64 : data.length < 2 ^ 64) (hperm : patterns.Perm patterns') :
    scan_multiple_patterns_simd data patterns = scan_multiple_patterns_simd data patterns' ∧
    (∀ result, scan_multiple_patterns_simd data patterns = .ok result →
      result.Pairwise (fun x y => x.1 < y.1 ∨ (x.1 = y.1 ∧ string_lt y.2 x.2 = false))) ∧
    (32 ≤ data.length → ∃ result, scan_multiple_patterns_simd data patterns = .ok result) :=
  ⟨scan_multiple_perm data patterns patterns' h64 hperm,
    fun result hok => scan_multiple_ok_sorted data patterns result hok,
    fun h32 => ⟨_, scan_multiple_long_eq data patterns h32 h64⟩⟩

/-- Witness of C31: on the 32-byte buffer that starts with `ab`, the pattern lists
`ab, a` and `a, ab` are permutations of each other and give the same sequence. -/
theorem scan_multiple_insensitive_to_pattern_order_witness :
    (ab_buffer.length < 2 ^ 64 ∧ 32 ≤ ab_buffer.length) ∧
    [bytes "ab", bytes "a"].Perm [bytes "a", bytes "ab"] ∧
    scan_multiple_patterns_simd ab_buffer [bytes "ab", bytes "a"]
      = scan_multiple_patterns_simd ab_buffer [bytes "a", bytes "ab"] ∧
    scan_multiple_patterns_simd ab_buffer [bytes "a", bytes "ab"]
      = .ok [(0, bytes "a"), (0, bytes "ab")] :=
  ⟨⟨by decide, by decide⟩, List.Perm.swap _ _ _,
    (scan_multiple_insensitive_to_pattern_order ab_buffer [bytes "ab", bytes "a"]
      [bytes "a", bytes "ab"] (by decide) (List.Perm.swap _ _ _)).1,
    by decide⟩

/-- C32, defect in the code: the comment of `calculate_stability_score` reads "Ensure score
is between 0 and 100", but only `stability > 100` is tested.  For an `AnalysisResult` with
`security_score = -50` and the one vulnerability `Debug Mode Enabled` the function returns
`-50 + 1 * 2 = -48`, and `process` stores that number under `stability_score`. -/
theorem calculate_stability_score_not_clamped_below :
    calculate_stability_score ⟨["Debug Mode Enabled"], [], [], -50, [], 0, true⟩ = -48 ∧
    process_stability_score 0 ⟨["Debug Mode Enabled"], [], [], -50, [], 0, true⟩
      = some (-48) := by
  decide

/-- C33, the claim as stated fails: 429496750 vulnerabilities and no protection are counts
that fit in a 32-bit `int`, and `clamp(100 - 5 * 429496750, 0, 100)` is 0; in the code
`100 - 2147483750` is computed in `size_t` and converted back to `int`, which gives
`2147483646`, and the function returns 100. -/
theorem calculate_security_score_wraps_for_large_counts :
    (List.replicate 429496750 "v").length < 2 ^ 31 ∧
    calculate_security_score ⟨List.replicate 429496750 "v", [], [], 0, [], 0, true⟩ = 100 ∧
    security_score_spec (List.replicate 429496750 "v").length 0 = 0 := by
  refine ⟨?_, ?_, ?_⟩
  · rw [List.length_replicate]; norm_num
  · rw [calculate_security_score_replicate]
    norm_num [int_wrap]
  · rw [List.length_replicate]
    norm_num [security_score_spec]

/-- C33, amended: for every `AnalysisResult`, `calculate_security_score` returns a value in
`[0, 100]`; and whenever the exact value `100 - 5 * |vulnerabilities| + 3 * |protections|`
lies in the range of a 32-bit `int`, it returns
`clamp(100 - 5 * |vulnerabilities| + 3 * |protections|, 0, 100)`, whatever the `size_t`
values in between. -/
theorem calculate_security_score_is_clamp (result : AnalysisResult) :
    (0 ≤ calculate_security_score result ∧ calculate_security_score result ≤ 100) ∧
    (-2 ^ 31 ≤ 100 - 5 * (result.vulnerabilities.length : Int)
        + 3 * (result.protections.length : Int) →
      100 - 5 * (result.vulnerabilities.length : Int)
        + 3 * (result.protections.length : Int) < 2 ^ 31 →
      calculate_security_score result
        = security_score_spec result.vulnerabilities.length result.protections.length) :=
  ⟨calculate_security_score_range result,
    fun hlo hhi => calculate_security_score_of_range result hlo hhi⟩

/-- Witness of C33 amended: three vulnerabilities and one protection, score 88. -/
theorem calculate_security_score_is_clamp_witness :
    (-2 ^ 31 ≤ 100 - 5 * ((["a", "b", "c"] : List String).length : Int)
        + 3 * ((["p"] : List String).length : Int) ∧
      100 - 5 * ((["a", "b", "c"] : List String).length : Int)
        + 3 * ((["p"] : List String).length : Int) < 2 ^ 31) ∧
    calculate_security_score ⟨["a", "b", "c"], ["p"], [], 0, [], 0, true⟩ = 88 ∧
    calculate_security_score ⟨["a", "b", "c"], ["p"], [], 0, [], 0, true⟩
      = security_score_spec 3 1 :=
  ⟨⟨by decide, by decide⟩, by decide,
    (calculate_security_score_is_clamp ⟨["a", "b", "c"], ["p"], [], 0, [], 0, true⟩).2
      (by decide) (by decide)⟩

end CppBreaker
